import Mathlib

/-!
Shallow embedding of the MCTS search engine of `gamesweet` (src/src/ai/mcts.rs,
with the `Game` trait of src/src/lib.rs), together with proofs about the claims
of its specification.

Modelling conventions:

* The Rust `Game` trait becomes a structure of pure functions over an abstract
  state type `σ`, player type `π` and turn (action) type `α`.  The mutating
  `fn play(&mut self, turn) -> bool` is modelled as `play : σ → α → σ × Bool`
  (the new state paired with the success flag).
* `usize::MAX`, the sentinel parent of the root, is `usizeMax = 2 ^ 64 - 1`.
* Machine counters `u32`/`usize` are modelled as `Nat`; no arithmetic in the
  engine ever overflows them in its reachable range, and none of the claims
  is about overflow.
* Arena indexing `tree[idx]` panics when out of bounds in Rust; the model
  reads a default node via `List.getD`.  All claims are stated for in-bounds
  handles (which is what the engine itself uses).
* The `f64` priority of `Node::priority` is modelled over `ℝ`, with
  `Option ℝ` as the value space: `none` stands for `+∞`.  The source computes
  `wins/sims + EXPLORE * sqrt(ln psims / sims)` in IEEE arithmetic and maps
  every non-finite result (NaN or ±∞) to `+∞`.  The result is non-finite
  exactly when `sims = 0` (then `wins/sims` is NaN or `+∞`) or `psims = 0`
  (then `ln 0 = -∞`, `sqrt` of it NaN); for `sims ≥ 1` and `psims ≥ 1` all
  intermediate values are finite.  The model therefore returns `none` in the
  first two cases and the exact real value otherwise.
* Rust's `Iterator::max_by` keeps the LAST of equally-maximal elements
  (it is `reduce` with `cmp::max_by`, which returns its second argument on
  `Equal`); `rustMaxBy` reproduces that exactly.
* The wall-clock budget of the search loop is modelled by an explicit list of
  per-iteration inputs: the loop runs once per list entry (the random sources
  of each iteration travel in the entry).  Random choices (`choose`) are fed
  from those streams: a stream value `r` picks index `r % len`.
* Loops whose termination depends on data (`backprop`'s walk to the root,
  `select`'s descent, the random rollout) use explicit fuel; the fuel chosen
  in the top-level wrappers is proved sufficient on well-formed trees.
-/

set_option linter.unusedSectionVars false

namespace Mcts

/-- `usize::MAX`, the sentinel stored as the parent of the root node. -/
def usizeMax : Nat := 2 ^ 64 - 1

/-- `const THRESHOLD: u32 = 3` of mcts.rs. -/
def THRESHOLD : Nat := 3

/-- `const EXPLORE: f64 = 1.414` of mcts.rs, as a real number. -/
noncomputable def EXPLORE : ℝ := 1.414

/-- The `Game` trait (src/src/lib.rs): current player, legal turns, playing a
turn (returning the mutated state and the success flag), terminal test and
winner query. -/
structure Game (σ π α : Type) where
  player : σ → π
  turns : σ → List α
  play : σ → α → σ × Bool
  over : σ → Bool
  winner : σ → Option π

/-- A node of the search tree (struct `Node` of mcts.rs): position in the
arena, parent handle, ordered child handles, owned state snapshot, the action
that produced it, and the win/simulation counters. -/
structure Node (σ α : Type) where
  idx : Nat
  parent : Nat
  children : List Nat
  state : σ
  action : Option α
  wins : Nat
  sims : Nat

/-- The arena tree (struct `Tree` of mcts.rs). -/
structure Tree (σ α : Type) where
  arena : List (Node σ α)
  root : Nat

instance [Inhabited σ] : Inhabited (Node σ α) :=
  ⟨⟨0, 0, [], default, none, 0, 0⟩⟩

variable {σ π α : Type}

/-- Arena lookup `tree[idx]` (out of bounds reads the default node; the Rust
code would panic there and the engine never indexes out of bounds). -/
def Tree.get [Inhabited σ] (t : Tree σ α) (i : Nat) : Node σ α :=
  t.arena.getD i default

/-- Arena update; out of bounds is a no-op (the Rust code would panic). -/
def Tree.set (t : Tree σ α) (i : Nat) (n : Node σ α) : Tree σ α :=
  { t with arena := t.arena.set i n }

/-- `self.arena.push(node)`. -/
def Tree.push (t : Tree σ α) (n : Node σ α) : Tree σ α :=
  { t with arena := t.arena ++ [n] }

/-- `Tree::new`: one root node with sentinel parent, no action, zero stats. -/
def Tree.new (s : σ) : Tree σ α :=
  { arena := [⟨0, usizeMax, [], s, none, 0, 0⟩], root := 0 }

/-- Rust's `Iterator::max_by`: left fold keeping the accumulator only when it
compares `Greater`, hence returning the LAST of equally-maximal elements. -/
def rustMaxBy {β : Type} (cmp : β → β → Ordering) : List β → Option β
  | [] => none
  | x :: xs => some (xs.foldl (fun acc y => if cmp acc y = .gt then acc else y) x)

/-- `u32::partial_cmp` (total on integers, `unwrap_or(Equal)` never fires). -/
def ncmp (a b : Nat) : Ordering :=
  if a < b then .lt else if b < a then .gt else .eq

/-- `f64::partial_cmp` on finite values. -/
noncomputable def fcmp (x y : ℝ) : Ordering :=
  if x < y then .lt else if y < x then .gt else .eq

/-- `f64::partial_cmp(..).unwrap_or(Equal)` on the value space of priorities
(finite reals and `+∞`, written `none`; no NaN survives `Node::priority`). -/
noncomputable def pcmp : Option ℝ → Option ℝ → Ordering
  | none, none => .eq
  | none, some _ => .gt
  | some _, none => .lt
  | some a, some b => fcmp a b

/-- `≤` on priorities (`none` is `+∞`). -/
def ple : Option ℝ → Option ℝ → Prop
  | _, none => True
  | none, some _ => False
  | some a, some b => a ≤ b

/-- `<` on priorities (`none` is `+∞`). -/
def plt : Option ℝ → Option ℝ → Prop
  | none, _ => False
  | some _, none => True
  | some a, some b => a < b

/-- `Node::priority` of mcts.rs.  The source computes
`wins/sims + EXPLORE * sqrt(ln psims / sims)` in `f64` and coerces every
non-finite result to `+∞`; the result is non-finite iff `sims = 0` or
`psims = 0` (see the header comment), which is the case split below. -/
noncomputable def Node.priority (n : Node σ α) (psims : Nat) : Option ℝ :=
  if n.sims = 0 ∨ psims = 0 then none
  else some ((n.wins : ℝ) / (n.sims : ℝ) + EXPLORE * Real.sqrt (Real.log (psims : ℝ) / (n.sims : ℝ)))

/-- The priority of child handle `i` as `Tree::select` computes it:
`Node::priority(&self[i], self[self[i].parent].sims)`. -/
noncomputable def prioOf [Inhabited σ] (t : Tree σ α) (i : Nat) : Option ℝ :=
  Node.priority (t.get i) ((t.get ((t.get i).parent)).sims)

/-- One selection step of `Tree::select`: among child handles `cs`, the handle
picked by `max_by` on priorities (ties keep the last). -/
noncomputable def selChild [Inhabited σ] (t : Tree σ α) (cs : List Nat) : Nat :=
  ((rustMaxBy (fun a b : Nat × Option ℝ => pcmp a.2 b.2)
      (cs.map (fun i => (i, prioOf t i)))).getD (0, none)).1

/-- The descent loop of `Tree::select`, with fuel. -/
noncomputable def selectAux [Inhabited σ] (t : Tree σ α) : Nat → Nat → Nat
  | 0, idx => idx
  | fuel + 1, idx =>
    if (t.get idx).children = [] then idx
    else selectAux t fuel (selChild t (t.get idx).children)

/-- `Tree::select`: descend from the root to a childless node.  The fuel
`t.arena.length` is sufficient on every reachable tree because each step
strictly increases the handle (proved below). -/
noncomputable def Tree.select [Inhabited σ] (t : Tree σ α) : Nat :=
  selectAux t t.arena.length t.root

/-- One iteration of the `for action in self[idx].state.turns()` loop of
`Tree::expand`: clone the state at `idx`, play the action (discarding the
returned flag), append the child node, record its handle in `idx`'s
children. -/
def expandStep [Inhabited σ] (g : Game σ π α) (idx : Nat) (t : Tree σ α) (a : α) : Tree σ α :=
  let tp : Tree σ α :=
    t.push ⟨t.arena.length, idx, [], (g.play ((t.get idx).state) a).1, some a, 0, 0⟩
  tp.set idx { tp.get idx with children := (tp.get idx).children ++ [t.arena.length] }

/-- `Tree::expand`: the action list is read once from `idx`'s state, then the
loop body runs once per action. -/
def Tree.expand [Inhabited σ] (t : Tree σ α) (g : Game σ π α) (idx : Nat) : Tree σ α :=
  (g.turns ((t.get idx).state)).foldl (expandStep g idx) t

/-- The random rollout of `Node::simulate`, on a state: while the state is not
over, play a uniformly random legal turn (stream value `r` picks index
`r % len`; an empty turn list on a non-terminal state would panic in Rust and
reads the default action here).  Fuel exhaustion reports the current winner. -/
def rollout [Inhabited α] (g : Game σ π α) : Nat → List Nat → σ → Option π
  | 0, _, s => g.winner s
  | fuel + 1, rs, s =>
    if g.over s then g.winner s
    else
      let ts := g.turns s
      rollout g fuel rs.tail (g.play s (ts.getD (rs.headD 0 % ts.length) default)).1

/-- `Node::simulate`: roll out from a copy of the node's state. -/
def Node.simulate [Inhabited α] (n : Node σ α) (g : Game σ π α) (fuel : Nat) (rs : List Nat) : Option π :=
  rollout g fuel rs n.state

/-- The effective winner used by `Tree::backprop`:
`winner.unwrap_or_else(|| self[self.root].state.player())`. -/
def effWinner [Inhabited σ] (g : Game σ π α) (t : Tree σ α) (w : Option π) : π :=
  w.getD (g.player ((t.get t.root).state))

/-- The `while idx != null` loop of `Tree::backprop`, with fuel: bump `sims`,
bump `wins` iff the effective winner differs from the player to move at the
node, ascend to the parent. -/
def backpropAux [Inhabited σ] [DecidableEq π] (g : Game σ π α) (eff : π) (null : Nat) :
    Nat → Nat → Tree σ α → Tree σ α
  | 0, _, t => t
  | fuel + 1, idx, t =>
    if idx = null then t
    else
      backpropAux g eff null fuel ((t.get idx).parent)
        (t.set idx
          { t.get idx with
            wins := (t.get idx).wins + (if eff ≠ g.player ((t.get idx).state) then 1 else 0),
            sims := (t.get idx).sims + 1 })

/-- `Tree::backprop`.  `null` is the sentinel read from the root's parent; the
fuel `t.arena.length + 1` is sufficient on well-formed trees because parents
strictly decrease (proved below). -/
def Tree.backprop [Inhabited σ] [DecidableEq π] (t : Tree σ α) (g : Game σ π α)
    (idx : Nat) (w : Option π) : Tree σ α :=
  backpropAux g (effWinner g t w) ((t.get t.root).parent) (t.arena.length + 1) idx t

/-- The handles visited by `Tree::backprop` starting from `idx`: the parent
chain up to (excluding) the sentinel, with the same fuel as `backpropAux`. -/
def chainAux [Inhabited σ] (t : Tree σ α) (null : Nat) : Nat → Nat → List Nat
  | 0, _ => []
  | fuel + 1, idx =>
    if idx = null then [] else idx :: chainAux t null fuel ((t.get idx).parent)

/-- The parent chain walked by `Tree::backprop` from `idx`. -/
def Tree.chain [Inhabited σ] (t : Tree σ α) (idx : Nat) : List Nat :=
  chainAux t ((t.get t.root).parent) (t.arena.length + 1) idx

/-- `SliceRandom::choose`: `none` on an empty slice, else the element at the
uniformly chosen index `r % len`. -/
def rchoose {β : Type} [Inhabited β] (l : List β) (r : Nat) : Option β :=
  if l.isEmpty then none else some (l.getD (r % l.length) default)

/-- One iteration of the search loop of `run`: select a leaf; if its `sims`
strictly exceeds `THRESHOLD`, expand it and move to a random child (falling
back to the leaf when expansion created none); simulate; backpropagate.
The iteration input carries the random child choice, the rollout fuel and the
rollout stream. -/
noncomputable def loopStep [Inhabited σ] [Inhabited α] [DecidableEq π]
    (g : Game σ π α) (t : Tree σ α) (inp : Nat × Nat × List Nat) : Tree σ α :=
  let leaf := t.select
  let p : Tree σ α × Nat :=
    if THRESHOLD < (t.get leaf).sims then
      let te := t.expand g leaf
      (te, (rchoose ((te.get leaf).children) inp.1).getD leaf)
    else (t, leaf)
  p.1.backprop g p.2 ((p.1.get p.2).simulate g inp.2.1 inp.2.2)

/-- The time-bounded loop of `run`: one iteration per input entry. -/
noncomputable def runLoop [Inhabited σ] [Inhabited α] [DecidableEq π]
    (g : Game σ π α) (inputs : List (Nat × Nat × List Nat)) (t : Tree σ α) : Tree σ α :=
  inputs.foldl (loopStep g) t

/-- `run` of mcts.rs (`chooseAction`): build the tree, expand the root, return
immediately on a single legal turn, otherwise loop under the budget and return
the action of the most-simulated root child (`max_by` keeps the last maximal
child).  `none` models the panics of the final `unwrap`s, never reached on the
engine's own inputs. -/
noncomputable def run [Inhabited σ] [Inhabited α] [DecidableEq π]
    (g : Game σ π α) (s : σ) (inputs : List (Nat × Nat × List Nat)) : Option α :=
  let t0 : Tree σ α := Tree.new s
  let t1 := t0.expand g t0.root
  if (t1.get t1.root).children.length = 1 then
    (t1.get ((t1.get t1.root).children.getD 0 0)).action
  else
    let t2 := runLoop g inputs t1
    match rustMaxBy (fun a b : Nat × Nat => ncmp a.2 b.2)
        (((t2.get t2.root).children).map (fun i => (i, (t2.get i).sims))) with
    | some p => (t2.get p.1).action
    | none => none

/-- Tree states reachable by the operations the engine performs: creation,
expansion of a valid handle, backpropagation from a valid handle.  (Simulation
does not touch the tree.) -/
inductive Reachable [Inhabited σ] [DecidableEq π] (g : Game σ π α) : Tree σ α → Prop
  | new (s : σ) : Reachable g (Tree.new s)
  | expand (t : Tree σ α) (idx : Nat) :
      Reachable g t → idx < t.arena.length → Reachable g (t.expand g idx)
  | backprop (t : Tree σ α) (idx : Nat) (w : Option π) :
      Reachable g t → idx < t.arena.length → Reachable g (t.backprop g idx w)

/-- Structural invariant on handles: fixed root `0`, each node stores its own
position, children point strictly forward and in range. -/
def ChildInv [Inhabited σ] (t : Tree σ α) : Prop :=
  t.root = 0 ∧ 0 < t.arena.length ∧
  (∀ i, i < t.arena.length → (t.get i).idx = i) ∧
  (∀ i, i < t.arena.length → ∀ c ∈ (t.get i).children, i < c ∧ c < t.arena.length)

/-- Structural invariant on parents: the root's parent is the sentinel,
every other node's parent strictly precedes it. -/
def ParentInv [Inhabited σ] (t : Tree σ α) : Prop :=
  (t.get 0).parent = usizeMax ∧
  (∀ i, i < t.arena.length → i ≠ 0 → (t.get i).parent < i)

/-- Full well-formedness (all reachable trees satisfy it; the size bound is
the `usize` capacity of the Rust arena). -/
def WellFormed [Inhabited σ] (t : Tree σ α) : Prop :=
  ChildInv t ∧ ParentInv t ∧ t.arena.length < usizeMax

instance [Inhabited σ] (t : Tree σ α) : Decidable (ChildInv t) := by
  unfold ChildInv
  infer_instance

instance [Inhabited σ] (t : Tree σ α) : Decidable (ParentInv t) := by
  unfold ParentInv
  infer_instance

instance [Inhabited σ] (t : Tree σ α) : Decidable (WellFormed t) := by
  unfold WellFormed
  infer_instance

/-- Spec-side descent relation for the amended claim C4 (tie-breaking by the
LAST child of maximal priority): a childless node descends to itself; a node
whose children split as `l₁ ++ c :: l₂` with every earlier child of priority
`≤` that of `c` and every later child of priority `<` that of `c` descends to
whatever `c` descends to. -/
inductive DescendsTo [Inhabited σ] (t : Tree σ α) : Nat → Nat → Prop
  | leaf (i : Nat) : (t.get i).children = [] → DescendsTo t i i
  | step (i c r : Nat) (l₁ l₂ : List Nat) :
      (t.get i).children = l₁ ++ c :: l₂ →
      (∀ d ∈ l₁, ple (prioOf t d) (prioOf t c)) →
      (∀ d ∈ l₂, plt (prioOf t d) (prioOf t c)) →
      DescendsTo t c r → DescendsTo t i r

/-- Concrete game with two legal turns at the start state `0` (turn `a` leads
to the terminal state `a`); used for witnesses and counterexamples. -/
def gTwo : Game Nat Bool Nat :=
  { player := fun s => s == 0
  , turns := fun s => if s = 0 then [1, 2] else []
  , play := fun _ a => (a, true)
  , over := fun s => s != 0
  , winner := fun s => if s = 0 then none else some false }

/-- `gTwo` with the success flag of `play` forced to `false`; the states it
produces are identical. -/
def gTwoFail : Game Nat Bool Nat :=
  { player := fun s => s == 0
  , turns := fun s => if s = 0 then [1, 2] else []
  , play := fun _ a => (a, false)
  , over := fun s => s != 0
  , winner := fun s => if s = 0 then none else some false }

/-- Concrete game with exactly one legal turn at the start state `0`. -/
def gOne : Game Nat Bool Nat :=
  { player := fun s => s == 0
  , turns := fun s => if s = 0 then [7] else []
  , play := fun _ a => (a, true)
  , over := fun s => s != 0
  , winner := fun s => if s = 0 then none else some true }

/-- Concrete game for the expansion-threshold witness: states `0` and `1` have
one turn (to `s + 1`), states `≥ 2` are terminal. -/
def gStep : Game Nat Bool Nat :=
  { player := fun s => s % 2 == 0
  , turns := fun s => if s < 2 then [5] else []
  , play := fun s _ => (s + 1, true)
  , over := fun s => 2 ≤ s
  , winner := fun _ => some true }

/-- The root expanded once on `gTwo`: root plus two fresh children. -/
def tTwo : Tree Nat Nat := (Tree.new 0).expand gTwo 0

/-- A handcrafted tree whose single leaf already has `sims = 4 > THRESHOLD`,
so the next loop iteration expands it. -/
def tStep : Tree Nat Nat :=
  { arena :=
      [ ⟨0, usizeMax, [1], 0, none, 2, 4⟩
      , ⟨1, 0, [], 1, some 5, 1, 4⟩ ]
  , root := 0 }

/-- A never-visited node (`sims = 0`), for the priority witnesses. -/
def nodeA : Node Nat Nat := ⟨1, 0, [], 0, none, 0, 0⟩

/-- A visited node (`wins = 1`, `sims = 2`), for the priority witnesses. -/
def nodeB : Node Nat Nat := ⟨1, 0, [], 0, none, 1, 2⟩

/-! ### Basic arena access lemmas -/

variable [Inhabited σ]

theorem Tree.get_set (t : Tree σ α) (i j : Nat) (n : Node σ α) :
    (t.set i n).get j = if i = j ∧ i < t.arena.length then n else t.get j := by
  simp only [Tree.get, Tree.set, List.getD_eq_getElem?_getD, List.getElem?_set]
  by_cases h1 : i = j
  · subst h1
    by_cases h2 : i < t.arena.length
    · simp [h2]
    · simp [h2, List.getElem?_len_le (Nat.le_of_not_lt h2)]
  · simp [h1]

theorem Tree.length_set (t : Tree σ α) (i : Nat) (n : Node σ α) :
    (t.set i n).arena.length = t.arena.length := by
  simp [Tree.set]

theorem Tree.root_set (t : Tree σ α) (i : Nat) (n : Node σ α) :
    (t.set i n).root = t.root := rfl

theorem Tree.get_oob (t : Tree σ α) (j : Nat) (h : t.arena.length ≤ j) :
    t.get j = default := by
  simp only [Tree.get, List.getD_eq_getElem?_getD]
  rw [List.getElem?_len_le h]
  rfl

theorem Tree.get_lt (t : Tree σ α) (j : Nat) (h : j < t.arena.length) :
    t.get j = t.arena.get ⟨j, h⟩ := by
  simp only [Tree.get]
  rw [List.getD_eq_getElem t.arena default h]
  simp

theorem getD_append_lt {β : Type} (l l2 : List β) (d : β) (j : Nat) (h : j < l.length) :
    (l ++ l2).getD j d = l.getD j d := by
  simp only [List.getD_eq_getElem?_getD, List.getElem?_append, h, if_pos]

theorem getD_append_len {β : Type} (l : List β) (n d : β) :
    (l ++ [n]).getD l.length d = n := by
  rw [List.getD_eq_getElem?_getD, List.getElem?_append_right (Nat.le_refl _)]
  simp

/-! ### Expansion lemmas -/

theorem Tree.length_push (t : Tree σ α) (n : Node σ α) :
    (t.push n).arena.length = t.arena.length + 1 := by
  simp [Tree.push]

theorem Tree.root_push (t : Tree σ α) (n : Node σ α) : (t.push n).root = t.root := rfl

theorem Tree.get_push_lt (t : Tree σ α) (n : Node σ α) (j : Nat) (h : j < t.arena.length) :
    (t.push n).get j = t.get j := by
  simp only [Tree.push, Tree.get]
  exact getD_append_lt _ _ _ _ h

theorem Tree.get_push_len (t : Tree σ α) (n : Node σ α) :
    (t.push n).get t.arena.length = n := by
  simp only [Tree.push, Tree.get]
  exact getD_append_len _ _ _

theorem expandStep_length (g : Game σ π α) (idx : Nat) (t : Tree σ α) (a : α) :
    (expandStep g idx t a).arena.length = t.arena.length + 1 := by
  simp [expandStep, Tree.set, Tree.push]

theorem expandStep_root (g : Game σ π α) (idx : Nat) (t : Tree σ α) (a : α) :
    (expandStep g idx t a).root = t.root := rfl

theorem expandStep_get_idx (g : Game σ π α) (idx : Nat) (t : Tree σ α) (a : α)
    (h : idx < t.arena.length) :
    (expandStep g idx t a).get idx =
      { t.get idx with children := (t.get idx).children ++ [t.arena.length] } := by
  simp only [expandStep, Tree.get_set]
  rw [if_pos ⟨by trivial, by rw [Tree.length_push]; omega⟩, Tree.get_push_lt t _ idx h]

theorem expandStep_get_old (g : Game σ π α) (idx : Nat) (t : Tree σ α) (a : α)
    (j : Nat) (hj : j < t.arena.length) (hne : j ≠ idx) :
    (expandStep g idx t a).get j = t.get j := by
  simp only [expandStep, Tree.get_set]
  rw [if_neg (fun hc => hne hc.1.symm), Tree.get_push_lt t _ j hj]

theorem expandStep_get_new (g : Game σ π α) (idx : Nat) (t : Tree σ α) (a : α)
    (h : idx < t.arena.length) :
    (expandStep g idx t a).get t.arena.length =
      ⟨t.arena.length, idx, [], (g.play ((t.get idx).state) a).1, some a, 0, 0⟩ := by
  simp only [expandStep, Tree.get_set]
  rw [if_neg (fun hc => Nat.lt_irrefl _ (hc.1 ▸ h)), Tree.get_push_len]

/-- Full specification of the expansion loop, by induction over the action
list: the arena grows by one node per action, the expanded node gains the
consecutive fresh handles as children (in order), each fresh node is the
played child, and every other old node is untouched. -/
theorem expand_fold_spec (g : Game σ π α) (idx : Nat) (acts : List α) :
    ∀ t : Tree σ α, idx < t.arena.length →
      (acts.foldl (expandStep g idx) t).arena.length = t.arena.length + acts.length ∧
      (acts.foldl (expandStep g idx) t).root = t.root ∧
      (∀ j, j < t.arena.length → j ≠ idx →
        (acts.foldl (expandStep g idx) t).get j = t.get j) ∧
      (acts.foldl (expandStep g idx) t).get idx =
        { t.get idx with
          children := (t.get idx).children ++ List.range' t.arena.length acts.length } ∧
      (∀ k, ∀ hk : k < acts.length,
        (acts.foldl (expandStep g idx) t).get (t.arena.length + k) =
          ⟨t.arena.length + k, idx, [],
            (g.play ((t.get idx).state) (acts.get ⟨k, hk⟩)).1,
            some (acts.get ⟨k, hk⟩), 0, 0⟩) := by
  induction acts with
  | nil =>
    intro t h
    refine ⟨by simp, rfl, fun j _ _ => rfl, by simp, fun k hk => absurd hk (by simp)⟩
  | cons a as ih =>
    intro t h
    have h1 : idx < (expandStep g idx t a).arena.length := by
      rw [expandStep_length]; exact Nat.lt_succ_of_lt h
    obtain ⟨ihlen, ihroot, ihold, ihidx, ihnew⟩ := ih (expandStep g idx t a) h1
    have hstate : ((expandStep g idx t a).get idx).state = (t.get idx).state := by
      rw [expandStep_get_idx g idx t a h]
    refine ⟨?_, ?_, ?_, ?_, ?_⟩
    · rw [List.foldl_cons, ihlen, expandStep_length]
      simp [Nat.add_assoc, Nat.add_comm 1]
    · rw [List.foldl_cons, ihroot, expandStep_root]
    · intro j hj hne
      rw [List.foldl_cons, ihold j (Nat.lt_of_lt_of_le hj (by rw [expandStep_length]; omega)) hne,
        expandStep_get_old g idx t a j hj hne]
    · rw [List.foldl_cons, ihidx, expandStep_get_idx g idx t a h, expandStep_length]
      simp only [List.length_cons, List.range'_succ]
      simp [List.append_assoc]
    · intro k hk
      rw [List.foldl_cons]
      match k with
      | 0 =>
        have hlt : t.arena.length < (expandStep g idx t a).arena.length := by
          rw [expandStep_length]; omega
        have hne2 : t.arena.length ≠ idx := fun hc => Nat.lt_irrefl _ (hc ▸ h)
        rw [Nat.add_zero, ihold t.arena.length hlt hne2, expandStep_get_new g idx t a h]
        rfl
      | k + 1 =>
        have hk2 : k < as.length := by simpa using Nat.lt_of_succ_lt_succ hk
        have heq : t.arena.length + (k + 1) = (expandStep g idx t a).arena.length + k := by
          rw [expandStep_length]; omega
        rw [heq, ihnew k hk2]
        rw [expandStep_length, hstate]
        rfl

/-! ### Backpropagation lemmas -/

theorem Tree.get_mem (t : Tree σ α) (j : Nat) (h : j < t.arena.length) :
    t.get j ∈ t.arena := by
  rw [Tree.get_lt t j h]
  exact List.get_mem _ _ _

theorem chainAux_congr (t t2 : Tree σ α) (null : Nat)
    (h : ∀ j, (t2.get j).parent = (t.get j).parent) :
    ∀ fuel idx, chainAux t2 null fuel idx = chainAux t null fuel idx := by
  intro fuel
  induction fuel with
  | zero => intro idx; rfl
  | succ fuel ih =>
    intro idx
    by_cases hn : idx = null
    · simp [chainAux, hn]
    · simp only [chainAux, hn, if_false, ite_false, h, ih]

theorem chainAux_null (t : Tree σ α) (null : Nat) :
    ∀ fuel, chainAux t null fuel null = [] := by
  intro fuel
  cases fuel with
  | zero => rfl
  | succ fuel => simp [chainAux]

section Backprop

variable [DecidableEq π]

theorem backpropAux_shape (g : Game σ π α) (eff : π) (null : Nat) :
    ∀ fuel idx (t : Tree σ α),
      (backpropAux g eff null fuel idx t).arena.length = t.arena.length ∧
      (backpropAux g eff null fuel idx t).root = t.root ∧
      ∀ j, ((backpropAux g eff null fuel idx t).get j).children = (t.get j).children ∧
        ((backpropAux g eff null fuel idx t).get j).parent = (t.get j).parent ∧
        ((backpropAux g eff null fuel idx t).get j).idx = (t.get j).idx ∧
        ((backpropAux g eff null fuel idx t).get j).state = (t.get j).state ∧
        ((backpropAux g eff null fuel idx t).get j).action = (t.get j).action := by
  intro fuel
  induction fuel with
  | zero => exact fun idx t => ⟨rfl, rfl, fun j => ⟨rfl, rfl, rfl, rfl, rfl⟩⟩
  | succ fuel ih =>
    intro idx t
    by_cases hn : idx = null
    · simp [backpropAux, hn]
    · simp only [backpropAux, hn, if_false, ite_false]
      obtain ⟨il, ir, ig⟩ := ih ((t.get idx).parent)
        (t.set idx
          { t.get idx with
            wins := (t.get idx).wins + (if eff ≠ g.player ((t.get idx).state) then 1 else 0),
            sims := (t.get idx).sims + 1 })
      refine ⟨by rw [il, Tree.length_set], by rw [ir, Tree.root_set], fun j => ?_⟩
      obtain ⟨c1, c2, c3, c4, c5⟩ := ig j
      rw [c1, c2, c3, c4, c5, Tree.get_set]
      by_cases hij : idx = j ∧ idx < t.arena.length
      · rw [if_pos hij]
        obtain ⟨hij1, _⟩ := hij
        subst hij1
        exact ⟨rfl, rfl, rfl, rfl, rfl⟩
      · rw [if_neg hij]
        exact ⟨rfl, rfl, rfl, rfl, rfl⟩

/-- Every node on the (duplicate-free, in-bounds) parent chain gets exactly
one more `sims` and the conditional `wins` bump; every other node is
untouched. -/
theorem backpropAux_spec (g : Game σ π α) (eff : π) (null : Nat) :
    ∀ fuel idx (t : Tree σ α),
      (chainAux t null fuel idx).Nodup →
      (∀ j ∈ chainAux t null fuel idx, j < t.arena.length) →
      ∀ j, (backpropAux g eff null fuel idx t).get j =
        (if j ∈ chainAux t null fuel idx then
          { t.get j with
            wins := (t.get j).wins + (if eff ≠ g.player ((t.get j).state) then 1 else 0),
            sims := (t.get j).sims + 1 }
         else t.get j) := by
  intro fuel
  induction fuel with
  | zero =>
    intro idx t _ _ j
    simp [chainAux, backpropAux]
  | succ fuel ih =>
    intro idx t hnd hbd j
    by_cases hn : idx = null
    · simp [backpropAux, chainAux, hn]
    · have hch : chainAux t null (fuel + 1) idx = idx :: chainAux t null fuel ((t.get idx).parent) := by
        simp [chainAux, hn]
      set nd : Node σ α :=
        { t.get idx with
          wins := (t.get idx).wins + (if eff ≠ g.player ((t.get idx).state) then 1 else 0),
          sims := (t.get idx).sims + 1 } with hnd2
      have hpar : ∀ j2, ((t.set idx nd).get j2).parent = (t.get j2).parent := by
        intro j2
        rw [Tree.get_set]
        by_cases hc : idx = j2 ∧ idx < t.arena.length
        · rw [if_pos hc]
          obtain ⟨h1, _⟩ := hc
          subst h1
          rfl
        · rw [if_neg hc]
      have hcc : chainAux (t.set idx nd) null fuel ((t.get idx).parent) =
          chainAux t null fuel ((t.get idx).parent) := chainAux_congr t _ null hpar fuel _
      rw [hch] at hnd hbd
      have hidx : idx < t.arena.length := hbd idx (List.mem_cons_self _ _)
      have hnotin : idx ∉ chainAux t null fuel ((t.get idx).parent) := (List.nodup_cons.mp hnd).1
      have hbd2 : ∀ j2 ∈ chainAux (t.set idx nd) null fuel ((t.get idx).parent),
          j2 < (t.set idx nd).arena.length := by
        intro j2 hj2
        rw [hcc] at hj2
        rw [Tree.length_set]
        exact hbd j2 (List.mem_cons_of_mem _ hj2)
      have hnd3 : (chainAux (t.set idx nd) null fuel ((t.get idx).parent)).Nodup := by
        rw [hcc]
        exact (List.nodup_cons.mp hnd).2
      have hrec := ih ((t.get idx).parent) (t.set idx nd) hnd3 hbd2 j
      simp only [backpropAux, hn, if_false, ite_false]
      rw [hrec, hcc, hch]
      by_cases hjc : j = idx
      · subst hjc
        rw [if_neg hnotin, if_pos (List.mem_cons_self _ _), Tree.get_set, if_pos ⟨rfl, hidx⟩]
      · by_cases hjt : j ∈ chainAux t null fuel ((t.get idx).parent)
        · rw [if_pos hjt, if_pos (List.mem_cons_of_mem _ hjt),
            Tree.get_set, if_neg (fun hc => hjc (hc.1.symm))]
        · rw [if_neg hjt, if_neg (by
            intro hc
            rcases List.mem_cons.mp hc with h1 | h2
            · exact hjc h1
            · exact hjt h2),
            Tree.get_set, if_neg (fun hc => hjc (hc.1.symm))]

/-- Backpropagation preserves `wins ≤ sims` for every node in the arena. -/
theorem backpropAux_wins_le (g : Game σ π α) (eff : π) (null : Nat) :
    ∀ fuel idx (t : Tree σ α), (∀ n ∈ t.arena, n.wins ≤ n.sims) →
      ∀ n ∈ (backpropAux g eff null fuel idx t).arena, n.wins ≤ n.sims := by
  intro fuel
  induction fuel with
  | zero => exact fun idx t h => h
  | succ fuel ih =>
    intro idx t h
    by_cases hn : idx = null
    · simpa [backpropAux, hn] using h
    · simp only [backpropAux, hn, if_false, ite_false]
      refine ih _ _ ?_
      intro n hnmem
      rcases List.mem_or_eq_of_mem_set hnmem with hold | hnew
      · exact h n hold
      · subst hnew
        simp only []
        have hbase : (t.get idx).wins ≤ (t.get idx).sims := by
          by_cases hin : idx < t.arena.length
          · exact h _ (Tree.get_mem t idx hin)
          · rw [Tree.get_oob t idx (Nat.le_of_not_lt hin)]
            exact Nat.le_refl 0
        by_cases hw : eff ≠ g.player ((t.get idx).state) <;> simp [hw] <;> omega

end Backprop

/-- On a well-formed tree the parent chain from a valid handle is
duplicate-free, stays at or below the start and in bounds, and contains both
the start and the root `0`. -/
theorem chain_spec (t : Tree σ α) (hwf : WellFormed t) :
    ∀ idx, idx < t.arena.length → ∀ fuel, idx < fuel →
      (chainAux t usizeMax fuel idx).Nodup ∧
      (∀ j ∈ chainAux t usizeMax fuel idx, j ≤ idx ∧ j < t.arena.length) ∧
      idx ∈ chainAux t usizeMax fuel idx ∧ 0 ∈ chainAux t usizeMax fuel idx := by
  obtain ⟨⟨hroot, hlen, hidx, hch⟩, ⟨hp0, hpdec⟩, hcap⟩ := hwf
  intro idx
  induction idx using Nat.strong_induction_on with
  | _ idx ih =>
    intro hlt fuel hfuel
    cases fuel with
    | zero => omega
    | succ fuel =>
      have hne : idx ≠ usizeMax := by
        have : idx < usizeMax := Nat.lt_trans hlt hcap
        omega
      have hch1 : chainAux t usizeMax (fuel + 1) idx =
          idx :: chainAux t usizeMax fuel ((t.get idx).parent) := by
        simp [chainAux, hne]
      by_cases h0 : idx = 0
      · subst h0
        rw [hch1, hp0, chainAux_null]
        refine ⟨List.nodup_cons.mpr ⟨by simp, List.nodup_nil⟩, ?_, List.mem_singleton.mpr rfl,
          List.mem_singleton.mpr rfl⟩
        intro j hj
        rw [List.mem_singleton] at hj
        subst hj
        exact ⟨Nat.le_refl 0, hlen⟩
      · have hpar : (t.get idx).parent < idx := hpdec idx hlt h0
        obtain ⟨ind, ielts, iself, izero⟩ :=
          ih ((t.get idx).parent) hpar (Nat.lt_trans hpar hlt) fuel (by omega)
        rw [hch1]
        refine ⟨List.nodup_cons.mpr ⟨?_, ind⟩, ?_, List.mem_cons_self _ _,
          List.mem_cons_of_mem _ izero⟩
        · intro hmem
          have := (ielts idx hmem).1
          omega
        · intro j hj
          rcases List.mem_cons.mp hj with h1 | h2
          · subst h1
            exact ⟨Nat.le_refl _, hlt⟩
          · obtain ⟨hj1, hj2⟩ := ielts j h2
            exact ⟨by omega, hj2⟩

/-! ### `max_by` lemmas -/

theorem rustMaxBy_mem {β : Type} (cmp : β → β → Ordering) (l : List β) (m : β)
    (h : rustMaxBy cmp l = some m) : m ∈ l := by
  cases l with
  | nil => simp [rustMaxBy] at h
  | cons x xs =>
    have aux : ∀ (ys : List β) (acc : β),
        ys.foldl (fun acc y => if cmp acc y = .gt then acc else y) acc = acc ∨
        ys.foldl (fun acc y => if cmp acc y = .gt then acc else y) acc ∈ ys := by
      intro ys
      induction ys with
      | nil => exact fun acc => Or.inl rfl
      | cons y ys ihy =>
        intro acc
        rcases ihy (if cmp acc y = .gt then acc else y) with h1 | h1
        · rw [List.foldl_cons, h1]
          by_cases hc : cmp acc y = .gt
          · exact Or.inl (by simp [hc])
          · exact Or.inr (by simp [hc])
        · exact Or.inr (List.mem_cons_of_mem _ (by rw [List.foldl_cons]; exact h1))
    simp only [rustMaxBy, Option.some.injEq] at h
    rcases aux xs x with h1 | h1
    · rw [h1] at h
      exact h ▸ List.mem_cons_self _ _
    · exact h ▸ List.mem_cons_of_mem _ h1

/-- Characterization of Rust's `max_by`: the returned element splits the list
into a part before it (all `≤` it) and a part after it (all strictly `<` it):
it is the LAST element attaining the maximum. -/
theorem rustMaxBy_split {β : Type} (cmp : β → β → Ordering) (le lt : β → β → Prop)
    (hgt : ∀ a b, cmp a b = .gt ↔ lt b a)
    (hnotgt : ∀ a b, ¬ cmp a b = .gt → le a b)
    (hltle2 : ∀ a b, lt a b → le a b)
    (hlele : ∀ a b c, le a b → le b c → le a c)
    (hltle : ∀ a b c, lt a b → le b c → lt a c) :
    ∀ (xs : List β) (x : β), ∃ m l₁ l₂,
      rustMaxBy cmp (x :: xs) = some m ∧ x :: xs = l₁ ++ m :: l₂ ∧
      (∀ y ∈ l₁, le y m) ∧ (∀ y ∈ l₂, lt y m) := by
  intro xs
  induction xs with
  | nil =>
    intro x
    exact ⟨x, [], [], rfl, rfl, fun y hy => absurd hy (by simp), fun y hy => absurd hy (by simp)⟩
  | cons y ys ih =>
    intro x
    have hstep : rustMaxBy cmp (x :: y :: ys) =
        rustMaxBy cmp ((if cmp x y = .gt then x else y) :: ys) := rfl
    obtain ⟨m, l₁, l₂, hmx, hsplit, hle1, hlt2⟩ := ih (if cmp x y = .gt then x else y)
    by_cases hc : cmp x y = .gt
    · rw [if_pos hc] at hmx hsplit
      have hyx : lt y x := (hgt x y).mp hc
      cases l₁ with
      | nil =>
        have hm2 : x = m ∧ ys = l₂ := by simpa using hsplit
        refine ⟨m, [], y :: ys, by rw [hstep, if_pos hc]; exact hmx, by simp [hm2.1.symm], ?_, ?_⟩
        · intro z hz
          exact absurd hz (by simp)
        · intro z hz
          rcases List.mem_cons.mp hz with h1 | h1
          · subst h1
            exact hm2.1 ▸ hyx
          · exact hlt2 z (hm2.2 ▸ h1)
      | cons a tl =>
        have heq : x = a ∧ ys = tl ++ m :: l₂ := by
          have := hsplit
          simp only [List.cons_append, List.cons.injEq] at this
          exact this
        have hxm : le x m := heq.1 ▸ hle1 a (List.mem_cons_self _ _)
        refine ⟨m, x :: y :: tl, l₂, by rw [hstep, if_pos hc]; exact hmx, ?_, ?_, hlt2⟩
        · simp [heq.2, List.cons_append]
        · intro z hz
          rcases List.mem_cons.mp hz with h1 | h1
          · subst h1
            exact hxm
          · rcases List.mem_cons.mp h1 with h2 | h2
            · subst h2
              exact hltle2 _ _ (hltle _ _ _ hyx hxm)
            · exact hle1 z (heq.1 ▸ List.mem_cons_of_mem _ h2)
    · rw [if_neg hc] at hmx hsplit
      have hxy : le x y := hnotgt x y hc
      cases l₁ with
      | nil =>
        have hm2 : y = m ∧ ys = l₂ := by simpa using hsplit
        refine ⟨m, [x], l₂, by rw [hstep, if_neg hc]; exact hmx, ?_, ?_, hlt2⟩
        · simp [hm2.1.symm, hm2.2.symm]
        · intro z hz
          rw [List.mem_singleton] at hz
          subst hz
          exact hm2.1 ▸ hxy
      | cons a tl =>
        have heq : y = a ∧ ys = tl ++ m :: l₂ := by
          have := hsplit
          simp only [List.cons_append, List.cons.injEq] at this
          exact this
        have hym : le y m := heq.1 ▸ hle1 a (List.mem_cons_self _ _)
        refine ⟨m, x :: y :: tl, l₂, by rw [hstep, if_neg hc]; exact hmx, ?_, ?_, hlt2⟩
        · simp [heq.2, List.cons_append]
        · intro z hz
          rcases List.mem_cons.mp hz with h1 | h1
          · subst h1
            exact hlele _ _ _ hxy hym
          · rcases List.mem_cons.mp h1 with h2 | h2
            · subst h2
              exact hym
            · exact hle1 z (heq.1 ▸ List.mem_cons_of_mem _ h2)

/-! ### Comparison order lemmas -/

theorem ncmp_gt_iff (a b : Nat) : ncmp a b = .gt ↔ b < a := by
  unfold ncmp
  split_ifs with h1 h2 <;> simp <;> omega

theorem ncmp_notgt (a b : Nat) (h : ¬ ncmp a b = .gt) : a ≤ b := by
  rw [ncmp_gt_iff] at h
  omega

theorem fcmp_gt_iff (x y : ℝ) : fcmp x y = .gt ↔ y < x := by
  unfold fcmp
  split_ifs with h1 h2
  · simp only [reduceCtorEq, false_iff]
    exact lt_asymm h1
  · simp [h2]
  · simp only [reduceCtorEq, false_iff]
    exact h2

theorem pcmp_gt_iff (p q : Option ℝ) : pcmp p q = .gt ↔ plt q p := by
  match p, q with
  | none, none => simp [pcmp, plt]
  | none, some b => simp [pcmp, plt]
  | some a, none => simp [pcmp, plt]
  | some a, some b =>
    show fcmp a b = .gt ↔ plt (some b) (some a)
    rw [fcmp_gt_iff]
    exact Iff.rfl

theorem pcmp_notgt (p q : Option ℝ) (h : ¬ pcmp p q = .gt) : ple p q := by
  match p, q with
  | none, none => trivial
  | none, some b => exact absurd rfl h
  | some a, none => trivial
  | some a, some b =>
    show a ≤ b
    simp only [pcmp] at h
    rw [fcmp_gt_iff] at h
    exact le_of_not_lt h

theorem plt_ple (p q : Option ℝ) (h : plt p q) : ple p q := by
  match p, q with
  | none, none => exact h.elim
  | none, some b => exact h.elim
  | some a, none => trivial
  | some a, some b => exact le_of_lt h

theorem ple_none (p : Option ℝ) : ple p none := by
  cases p <;> trivial

theorem ple_trans (p q r : Option ℝ) (h1 : ple p q) (h2 : ple q r) : ple p r := by
  match p, q, r with
  | p, q, none => exact ple_none p
  | p, none, some c => exact h2.elim
  | none, some b, some c => exact h1.elim
  | some a, some b, some c => exact le_trans h1 h2

theorem plt_of_plt_of_ple (p q r : Option ℝ) (h1 : plt p q) (h2 : ple q r) : plt p r := by
  match p, q, r with
  | none, _, _ => exact h1.elim
  | some a, none, none => trivial
  | some a, none, some c => exact h2.elim
  | some a, some b, none => trivial
  | some a, some b, some c => exact lt_of_lt_of_le h1 h2

/-! ### Selection lemmas -/

theorem selChild_mem (t : Tree σ α) (cs : List Nat) (hne : cs ≠ []) :
    selChild t cs ∈ cs := by
  cases cs with
  | nil => exact absurd rfl hne
  | cons x xs =>
    have hx : rustMaxBy (fun a b : Nat × Option ℝ => pcmp a.2 b.2)
        ((x :: xs).map (fun i => (i, prioOf t i))) =
        some (((xs.map (fun i => (i, prioOf t i)))).foldl
          (fun acc y => if pcmp acc.2 y.2 = .gt then acc else y) (x, prioOf t x)) := rfl
    have hmem := rustMaxBy_mem _ _ _ hx
    obtain ⟨i, hi, hfi⟩ := List.mem_map.mp hmem
    have : selChild t (x :: xs) = i := by
      simp only [selChild, hx, Option.getD_some]
      rw [← hfi]
    rw [this]
    exact hi

/-- `max_by` over the child priorities splits the children into those before
the picked child (priority `≤`) and those after it (priority `<`): the engine
picks the LAST child of maximal priority. -/
theorem selChild_split (t : Tree σ α) (cs : List Nat) (hne : cs ≠ []) :
    ∃ l₁ l₂, cs = l₁ ++ selChild t cs :: l₂ ∧
      (∀ d ∈ l₁, ple (prioOf t d) (prioOf t (selChild t cs))) ∧
      (∀ d ∈ l₂, plt (prioOf t d) (prioOf t (selChild t cs))) := by
  cases cs with
  | nil => exact absurd rfl hne
  | cons x xs =>
    obtain ⟨m, pl₁, pl₂, hmx, hsplit, hle1, hlt2⟩ :=
      rustMaxBy_split (fun a b : Nat × Option ℝ => pcmp a.2 b.2)
        (fun a b => ple a.2 b.2) (fun a b => plt a.2 b.2)
        (fun a b => pcmp_gt_iff a.2 b.2)
        (fun a b h => pcmp_notgt a.2 b.2 h)
        (fun a b h => plt_ple a.2 b.2 h)
        (fun a b c h1 h2 => ple_trans a.2 b.2 c.2 h1 h2)
        (fun a b c h1 h2 => plt_of_plt_of_ple a.2 b.2 c.2 h1 h2)
        (xs.map (fun i => (i, prioOf t i))) (x, prioOf t x)
    have hmap : (x :: xs).map (fun i => (i, prioOf t i)) = pl₁ ++ m :: pl₂ := by
      rw [List.map_cons]
      exact hsplit
    have hsel : selChild t (x :: xs) = m.1 := by
      simp only [selChild, List.map_cons, hmx, Option.getD_some]
    have hval : ∀ p ∈ (x :: xs).map (fun i => (i, prioOf t i)), p.2 = prioOf t p.1 := by
      intro p hp
      obtain ⟨i, _, hfi⟩ := List.mem_map.mp hp
      rw [← hfi]
    have hmval : m.2 = prioOf t m.1 := by
      refine hval m ?_
      rw [hmap]
      exact List.mem_append_right _ (List.mem_cons_self _ _)
    refine ⟨pl₁.map Prod.fst, pl₂.map Prod.fst, ?_, ?_, ?_⟩
    · have h2 := congrArg (List.map Prod.fst) hmap
      have hid : (Prod.fst ∘ fun i : Nat => (i, prioOf t i)) = id := by
        funext i
        rfl
      rw [List.map_map, hid, List.map_id, List.map_append, List.map_cons] at h2
      rw [hsel]
      exact h2
    · intro d hd
      obtain ⟨p, hp, hpd⟩ := List.mem_map.mp hd
      have hpmem : p ∈ (x :: xs).map (fun i => (i, prioOf t i)) := by
        rw [hmap]
        exact List.mem_append_left _ hp
      have := hle1 p hp
      rw [hval p hpmem, hmval, hpd] at this
      rw [hsel]
      exact this
    · intro d hd
      obtain ⟨p, hp, hpd⟩ := List.mem_map.mp hd
      have hpmem : p ∈ (x :: xs).map (fun i => (i, prioOf t i)) := by
        rw [hmap]
        exact List.mem_append_right _ (List.mem_cons_of_mem _ hp)
      have := hlt2 p hp
      rw [hval p hpmem, hmval, hpd] at this
      rw [hsel]
      exact this

/-! ### Bridging lemmas for the top-level tree operations -/

theorem Tree.expand_def (t : Tree σ α) (g : Game σ π α) (idx : Nat) :
    t.expand g idx = (g.turns ((t.get idx).state)).foldl (expandStep g idx) t := rfl

theorem Tree.new_length (s : σ) : (Tree.new s : Tree σ α).arena.length = 1 := rfl

theorem Tree.new_root (s : σ) : (Tree.new s : Tree σ α).root = 0 := rfl

theorem Tree.new_get (s : σ) :
    (Tree.new s : Tree σ α).get 0 = ⟨0, usizeMax, [], s, none, 0, 0⟩ := rfl

theorem Tree.expand_spec (t : Tree σ α) (g : Game σ π α) (idx : Nat)
    (h : idx < t.arena.length) :
    (t.expand g idx).arena.length = t.arena.length + (g.turns ((t.get idx).state)).length ∧
    (t.expand g idx).root = t.root ∧
    (∀ j, j < t.arena.length → j ≠ idx → (t.expand g idx).get j = t.get j) ∧
    (t.expand g idx).get idx =
      { t.get idx with
        children := (t.get idx).children ++
          List.range' t.arena.length (g.turns ((t.get idx).state)).length } ∧
    (∀ k, ∀ hk : k < (g.turns ((t.get idx).state)).length,
      (t.expand g idx).get (t.arena.length + k) =
        ⟨t.arena.length + k, idx, [],
          (g.play ((t.get idx).state) ((g.turns ((t.get idx).state)).get ⟨k, hk⟩)).1,
          some ((g.turns ((t.get idx).state)).get ⟨k, hk⟩), 0, 0⟩) :=
  expand_fold_spec g idx _ t h

theorem Tree.backprop_shape [DecidableEq π] (t : Tree σ α) (g : Game σ π α)
    (idx : Nat) (w : Option π) :
    (t.backprop g idx w).arena.length = t.arena.length ∧
    (t.backprop g idx w).root = t.root ∧
    ∀ j, ((t.backprop g idx w).get j).children = (t.get j).children ∧
      ((t.backprop g idx w).get j).parent = (t.get j).parent ∧
      ((t.backprop g idx w).get j).idx = (t.get j).idx ∧
      ((t.backprop g idx w).get j).state = (t.get j).state ∧
      ((t.backprop g idx w).get j).action = (t.get j).action :=
  backpropAux_shape g _ _ _ idx t

/-! ### Invariants of reachable trees -/

theorem reachable_inv [DecidableEq π] (g : Game σ π α) (t : Tree σ α) (h : Reachable g t) :
    ChildInv t ∧ ParentInv t := by
  induction h with
  | new s =>
    refine ⟨⟨rfl, by simp [Tree.new], ?_, ?_⟩, ⟨rfl, ?_⟩⟩
    · intro i hi
      have h0 : i = 0 := by
        rw [Tree.new_length] at hi
        omega
      subst h0
      rfl
    · intro i hi c hc
      have h0 : i = 0 := by
        rw [Tree.new_length] at hi
        omega
      subst h0
      rw [Tree.new_get] at hc
      exact absurd hc (by simp)
    · intro i hi hne
      have h0 : i = 0 := by
        rw [Tree.new_length] at hi
        omega
      exact absurd h0 hne
  | expand t idx ht hidx ih =>
    obtain ⟨⟨hr, hl, hif, hcf⟩, ⟨hpr, hpd⟩⟩ := ih
    obtain ⟨eL, eroot, eold, eidx, enew⟩ := Tree.expand_spec t g idx hidx
    refine ⟨⟨by rw [eroot, hr], by rw [eL]; omega, ?_, ?_⟩, ⟨?_, ?_⟩⟩
    · intro j hj
      by_cases hjL : j < t.arena.length
      · by_cases hji : j = idx
        · subst hji
          rw [eidx]
          exact hif j hjL
        · rw [eold j hjL hji]
          exact hif j hjL
      · have hk : ∃ k, j = t.arena.length + k ∧
            k < (g.turns ((t.get idx).state)).length := by
          refine ⟨j - t.arena.length, by omega, ?_⟩
          rw [eL] at hj
          omega
        obtain ⟨k, hk1, hk2⟩ := hk
        subst hk1
        rw [enew k hk2]
    · intro j hj c hc
      by_cases hjL : j < t.arena.length
      · by_cases hji : j = idx
        · subst hji
          rw [eidx] at hc
          simp only [List.mem_append] at hc
          rcases hc with hc | hc
          · obtain ⟨h1, h2⟩ := hcf _ hjL c hc
            rw [eL]
            exact ⟨h1, by omega⟩
          · rw [List.mem_range'_1] at hc
            rw [eL]
            exact ⟨by omega, by omega⟩
        · rw [eold j hjL hji] at hc
          obtain ⟨h1, h2⟩ := hcf j hjL c hc
          rw [eL]
          exact ⟨h1, by omega⟩
      · have hk : ∃ k, j = t.arena.length + k ∧
            k < (g.turns ((t.get idx).state)).length := by
          refine ⟨j - t.arena.length, by omega, ?_⟩
          rw [eL] at hj
          omega
        obtain ⟨k, hk1, hk2⟩ := hk
        subst hk1
        rw [enew k hk2] at hc
        exact absurd hc (by simp)
    · by_cases h0 : idx = 0
      · subst h0
        rw [eidx]
        exact hpr
      · rw [eold 0 (hr ▸ hl) (fun hc => h0 hc.symm)]
        exact hpr
    · intro j hj hne0
      by_cases hjL : j < t.arena.length
      · by_cases hji : j = idx
        · subst hji
          rw [eidx]
          exact hpd j hjL hne0
        · rw [eold j hjL hji]
          exact hpd j hjL hne0
      · have hk : ∃ k, j = t.arena.length + k ∧
            k < (g.turns ((t.get idx).state)).length := by
          refine ⟨j - t.arena.length, by omega, ?_⟩
          rw [eL] at hj
          omega
        obtain ⟨k, hk1, hk2⟩ := hk
        subst hk1
        rw [enew k hk2]
        exact Nat.lt_of_lt_of_le hidx (Nat.le_add_right _ _)
  | backprop t idx w ht hidx ih =>
    obtain ⟨⟨hr, hl, hif, hcf⟩, ⟨hpr, hpd⟩⟩ := ih
    obtain ⟨bl, br, bf⟩ := Tree.backprop_shape t g idx w
    refine ⟨⟨by rw [br, hr], by rw [bl]; omega, ?_, ?_⟩, ⟨?_, ?_⟩⟩
    · intro j hj
      rw [bl] at hj
      rw [(bf j).2.2.1]
      exact hif j hj
    · intro j hj c hc
      rw [bl] at hj
      rw [(bf j).1] at hc
      rw [bl]
      exact hcf j hj c hc
    · rw [(bf 0).2.1]
      exact hpr
    · intro j hj hne0
      rw [bl] at hj
      rw [(bf j).2.1]
      exact hpd j hj hne0

/-- `wins ≤ sims` holds for every node of every reachable tree. -/
theorem reachable_wins_le [DecidableEq π] (g : Game σ π α) (t : Tree σ α)
    (h : Reachable g t) : ∀ n ∈ t.arena, n.wins ≤ n.sims := by
  induction h with
  | new s =>
    intro n hn
    simp only [Tree.new, List.mem_singleton] at hn
    subst hn
    exact Nat.le_refl 0
  | expand t idx ht hidx ih =>
    obtain ⟨eL, eroot, eold, eidx, enew⟩ := Tree.expand_spec t g idx hidx
    intro n hn
    obtain ⟨j, hj, hget⟩ := List.mem_iff_getElem.mp hn
    have hn2 : n = (t.expand g idx).get j := by
      rw [Tree.get_lt _ j hj]
      simp [hget]
    subst hn2
    by_cases hjL : j < t.arena.length
    · by_cases hji : j = idx
      · subst hji
        rw [eidx]
        simpa using ih _ (Tree.get_mem t _ hjL)
      · rw [eold j hjL hji]
        exact ih _ (Tree.get_mem t j hjL)
    · have hk : ∃ k, j = t.arena.length + k ∧
          k < (g.turns ((t.get idx).state)).length := by
        refine ⟨j - t.arena.length, by omega, ?_⟩
        rw [eL] at hj
        omega
      obtain ⟨k, hk1, hk2⟩ := hk
      subst hk1
      rw [enew k hk2]
  | backprop t idx w ht hidx ih =>
    exact backpropAux_wins_le g _ _ _ idx t ih

/-! ### Selection: termination and the descent it performs -/

theorem selectAux_spec (t : Tree σ α)
    (hch : ∀ i, i < t.arena.length → ∀ c ∈ (t.get i).children, i < c ∧ c < t.arena.length) :
    ∀ fuel idx, idx < t.arena.length → t.arena.length ≤ fuel + idx →
      (t.get (selectAux t fuel idx)).children = [] ∧
      DescendsTo t idx (selectAux t fuel idx) := by
  intro fuel
  induction fuel with
  | zero =>
    intro idx h1 h2
    omega
  | succ fuel ih =>
    intro idx h1 h2
    by_cases hc : (t.get idx).children = []
    · rw [show selectAux t (fuel + 1) idx = idx from by simp [selectAux, hc]]
      exact ⟨hc, DescendsTo.leaf idx hc⟩
    · have hmem := selChild_mem t _ hc
      obtain ⟨hgt, hlt⟩ := hch idx h1 _ hmem
      rw [show selectAux t (fuel + 1) idx =
          selectAux t fuel (selChild t (t.get idx).children) from by simp [selectAux, hc]]
      obtain ⟨hrec1, hrec2⟩ := ih (selChild t (t.get idx).children) hlt (by omega)
      obtain ⟨l₁, l₂, hsp, hle, hltp⟩ := selChild_split t _ hc
      exact ⟨hrec1, DescendsTo.step idx _ _ l₁ l₂ hsp hle hltp hrec2⟩

theorem select_spec (t : Tree σ α) (hci : ChildInv t) :
    (t.get t.select).children = [] ∧ DescendsTo t t.root t.select := by
  obtain ⟨hr, hl, _, hch⟩ := hci
  exact selectAux_spec t hch t.arena.length t.root (by omega) (Nat.le_add_right _ _)

/-! ### Priority value lemmas -/

theorem priority_sims_zero (n : Node σ α) (psims : Nat) (h : n.sims = 0) :
    n.priority psims = none := by
  simp [Node.priority, h]

theorem priority_pos (n : Node σ α) (psims : Nat) (h1 : 0 < n.sims) (h2 : 1 ≤ psims) :
    n.priority psims =
      some ((n.wins : ℝ) / (n.sims : ℝ) +
        EXPLORE * Real.sqrt (Real.log (psims : ℝ) / (n.sims : ℝ))) := by
  rw [Node.priority, if_neg]
  intro hc
  rcases hc with hc | hc <;> omega

theorem priority_eq_none (n : Node σ α) (psims : Nat) (h : n.priority psims = none) :
    n.sims = 0 ∨ psims = 0 := by
  by_contra hc
  rw [Node.priority, if_neg hc] at h
  exact Option.some_ne_none _ h

/-- If some pair in the list carries priority `+∞` (`none`), so does the pair
returned by `max_by`. -/
theorem rustMaxBy_none_snd (lp : List (Nat × Option ℝ)) (m : Nat × Option ℝ)
    (h : rustMaxBy (fun a b : Nat × Option ℝ => pcmp a.2 b.2) lp = some m)
    (hex : ∃ p ∈ lp, p.2 = none) : m.2 = none := by
  cases lp with
  | nil => simp [rustMaxBy] at h
  | cons x xs =>
    have aux : ∀ (ys : List (Nat × Option ℝ)) (acc : Nat × Option ℝ),
        (acc.2 = none ∨ ∃ p ∈ ys, p.2 = none) →
        (ys.foldl (fun acc y => if pcmp acc.2 y.2 = .gt then acc else y) acc).2 = none := by
      intro ys
      induction ys with
      | nil =>
        intro acc hpre
        rcases hpre with h1 | h1
        · exact h1
        · obtain ⟨p, hp, _⟩ := h1
          exact absurd hp (by simp)
      | cons y ys ihy =>
        intro acc hpre
        rw [List.foldl_cons]
        refine ihy _ ?_
        rcases hpre with h1 | h1
        · by_cases hcg : pcmp acc.2 y.2 = .gt
          · rw [if_pos hcg]
            exact Or.inl h1
          · rw [if_neg hcg]
            rw [h1] at hcg
            cases hy : y.2 with
            | none => exact Or.inl rfl
            | some b =>
              rw [hy] at hcg
              exact absurd rfl hcg
        · rcases List.mem_cons.mp h1.choose_spec.1 with hpy | hpy
          · obtain ⟨p, hp, hp2⟩ := h1
            rcases List.mem_cons.mp hp with h2 | h2
            · have hy2 : y.2 = none := by rw [← h2]; exact hp2
              have hng : ¬ pcmp acc.2 y.2 = .gt := by
                rw [hy2]
                cases acc.2 <;> simp [pcmp]
              rw [if_neg hng]
              exact Or.inl hy2
            · exact Or.inr ⟨p, h2, hp2⟩
          · obtain ⟨p, hp, hp2⟩ := h1
            rcases List.mem_cons.mp hp with h2 | h2
            · have hy2 : y.2 = none := by rw [← h2]; exact hp2
              have hng : ¬ pcmp acc.2 y.2 = .gt := by
                rw [hy2]
                cases acc.2 <;> simp [pcmp]
              rw [if_neg hng]
              exact Or.inl hy2
            · exact Or.inr ⟨p, h2, hp2⟩
    simp only [rustMaxBy, Option.some.injEq] at h
    rw [← h]
    refine aux xs x ?_
    obtain ⟨p, hp, hp2⟩ := hex
    rcases List.mem_cons.mp hp with h2 | h2
    · exact Or.inl (by rw [← h2]; exact hp2)
    · exact Or.inr ⟨p, h2, hp2⟩

/-! ### Loop-step equations and monotonicity -/

section Loop

variable [Inhabited α] [DecidableEq π]

theorem loopStep_eq_pos (g : Game σ π α) (t : Tree σ α) (inp : Nat × Nat × List Nat)
    (h : THRESHOLD < (t.get t.select).sims) :
    loopStep g t inp = (t.expand g t.select).backprop g
      ((rchoose (((t.expand g t.select).get t.select).children) inp.1).getD t.select)
      (((t.expand g t.select).get
          ((rchoose (((t.expand g t.select).get t.select).children) inp.1).getD t.select)).simulate
        g inp.2.1 inp.2.2) := by
  simp [loopStep, h]

theorem loopStep_eq_neg (g : Game σ π α) (t : Tree σ α) (inp : Nat × Nat × List Nat)
    (h : ¬ THRESHOLD < (t.get t.select).sims) :
    loopStep g t inp =
      t.backprop g t.select ((t.get t.select).simulate g inp.2.1 inp.2.2) := by
  simp [loopStep, h]

/-- A leaf with `sims > THRESHOLD` is a valid handle (the default node read
out of bounds has `sims = 0`). -/
theorem guard_in_bounds (t : Tree σ α) (h : THRESHOLD < (t.get t.select).sims) :
    t.select < t.arena.length := by
  by_contra hc
  rw [Tree.get_oob t _ (Nat.le_of_not_lt hc)] at h
  exact absurd h (by simp [THRESHOLD, default])

theorem loopStep_root (g : Game σ π α) (t : Tree σ α) (inp : Nat × Nat × List Nat) :
    (loopStep g t inp).root = t.root := by
  by_cases h : THRESHOLD < (t.get t.select).sims
  · rw [loopStep_eq_pos g t inp h]
    rw [(Tree.backprop_shape _ g _ _).2.1,
      (Tree.expand_spec t g t.select (guard_in_bounds t h)).2.1]
  · rw [loopStep_eq_neg g t inp h]
    exact (Tree.backprop_shape _ g _ _).2.1

theorem loopStep_children_mono (g : Game σ π α) (t : Tree σ α) (inp : Nat × Nat × List Nat)
    (j : Nat) :
    ∃ ext, ((loopStep g t inp).get j).children = (t.get j).children ++ ext := by
  by_cases h : THRESHOLD < (t.get t.select).sims
  · rw [loopStep_eq_pos g t inp h]
    have hb := (Tree.backprop_shape ((t.expand g t.select)) g
      ((rchoose (((t.expand g t.select).get t.select).children) inp.1).getD t.select)
      (((t.expand g t.select).get
          ((rchoose (((t.expand g t.select).get t.select).children) inp.1).getD t.select)).simulate
        g inp.2.1 inp.2.2)).2.2 j
    rw [hb.1]
    have hlt := guard_in_bounds t h
    obtain ⟨eL, eroot, eold, eidx, enew⟩ := Tree.expand_spec t g t.select hlt
    by_cases hjL : j < t.arena.length
    · by_cases hji : j = t.select
      · subst hji
        rw [eidx]
        exact ⟨_, rfl⟩
      · rw [eold j hjL hji]
        exact ⟨[], by simp⟩
    · have hdefault : (t.get j).children = [] := by
        rw [Tree.get_oob t j (Nat.le_of_not_lt hjL)]
        rfl
      rw [hdefault]
      exact ⟨((t.expand g t.select).get j).children, by simp⟩
  · rw [loopStep_eq_neg g t inp h]
    rw [((Tree.backprop_shape t g t.select _).2.2 j).1]
    exact ⟨[], by simp⟩

theorem runLoop_root (g : Game σ π α) (inputs : List (Nat × Nat × List Nat)) :
    ∀ t : Tree σ α, (runLoop g inputs t).root = t.root := by
  induction inputs with
  | nil => exact fun t => rfl
  | cons i is ih =>
    intro t
    rw [show runLoop g (i :: is) t = runLoop g is (loopStep g t i) from rfl, ih,
      loopStep_root]

theorem runLoop_children_mono (g : Game σ π α) (inputs : List (Nat × Nat × List Nat)) :
    ∀ (t : Tree σ α) (j : Nat),
      ∃ ext, ((runLoop g inputs t).get j).children = (t.get j).children ++ ext := by
  induction inputs with
  | nil => exact fun t j => ⟨[], by simp [runLoop]⟩
  | cons i is ih =>
    intro t j
    obtain ⟨e1, he1⟩ := loopStep_children_mono g t i j
    obtain ⟨e2, he2⟩ := ih (loopStep g t i) j
    refine ⟨e1 ++ e2, ?_⟩
    rw [show runLoop g (i :: is) t = runLoop g is (loopStep g t i) from rfl, he2, he1,
      List.append_assoc]

theorem runLoop_take_step (g : Game σ π α) (inputs : List (Nat × Nat × List Nat))
    (t : Tree σ α) (k : Nat) (hk : k < inputs.length) :
    runLoop g (inputs.take (k + 1)) t =
      loopStep g (runLoop g (inputs.take k) t) inputs[k] := by
  have hsplit : inputs.take (k + 1) = inputs.take k ++ [inputs[k]] := by
    rw [List.take_succ, List.getElem?_eq_getElem hk]
    rfl
  rw [hsplit]
  simp only [runLoop, List.foldl_append, List.foldl_cons, List.foldl_nil]

end Loop

/-! ### The success flag of `play` is invisible to the engine -/

section FlagCongr

variable [Inhabited α] [DecidableEq π]

theorem expand_flag_congr (g1 g2 : Game σ π α)
    (ht : g1.turns = g2.turns) (hp : ∀ s a, (g1.play s a).1 = (g2.play s a).1) :
    ∀ (t : Tree σ α) (idx : Nat), t.expand g1 idx = t.expand g2 idx := by
  intro t idx
  have hstep : expandStep g1 idx = expandStep g2 idx := by
    funext t2 a
    simp only [expandStep, hp]
  show (g1.turns ((t.get idx).state)).foldl (expandStep g1 idx) t =
    (g2.turns ((t.get idx).state)).foldl (expandStep g2 idx) t
  rw [ht, hstep]

theorem rollout_flag_congr (g1 g2 : Game σ π α)
    (ht : g1.turns = g2.turns) (hp : ∀ s a, (g1.play s a).1 = (g2.play s a).1)
    (ho : g1.over = g2.over) (hw : g1.winner = g2.winner) :
    ∀ (fuel : Nat) (rs : List Nat) (s : σ), rollout g1 fuel rs s = rollout g2 fuel rs s := by
  intro fuel
  induction fuel with
  | zero =>
    intro rs s
    simp [rollout, hw]
  | succ fuel ih =>
    intro rs s
    simp only [rollout, ho, hw, ht, hp, ih]

theorem simulate_flag_congr (g1 g2 : Game σ π α)
    (ht : g1.turns = g2.turns) (hp : ∀ s a, (g1.play s a).1 = (g2.play s a).1)
    (ho : g1.over = g2.over) (hw : g1.winner = g2.winner) :
    ∀ (n : Node σ α) (fuel : Nat) (rs : List Nat),
      n.simulate g1 fuel rs = n.simulate g2 fuel rs := by
  intro n fuel rs
  exact rollout_flag_congr g1 g2 ht hp ho hw fuel rs n.state

theorem backprop_flag_congr (g1 g2 : Game σ π α) (hpl : g1.player = g2.player) :
    ∀ (t : Tree σ α) (idx : Nat) (w : Option π), t.backprop g1 idx w = t.backprop g2 idx w := by
  have haux : ∀ (eff : π) (null fuel idx : Nat) (t : Tree σ α),
      backpropAux g1 eff null fuel idx t = backpropAux g2 eff null fuel idx t := by
    intro eff null fuel
    induction fuel with
    | zero => intro idx t; rfl
    | succ fuel ih =>
      intro idx t
      by_cases hn : idx = null
      · simp [backpropAux, hn]
      · simp only [backpropAux, hn, if_false, ite_false, hpl, ih]
  intro t idx w
  simp only [Tree.backprop, effWinner, hpl, haux]

theorem loopStep_flag_congr (g1 g2 : Game σ π α)
    (hpl : g1.player = g2.player) (ht : g1.turns = g2.turns)
    (hp : ∀ s a, (g1.play s a).1 = (g2.play s a).1)
    (ho : g1.over = g2.over) (hw : g1.winner = g2.winner) :
    ∀ (t : Tree σ α) (inp : Nat × Nat × List Nat), loopStep g1 t inp = loopStep g2 t inp := by
  intro t inp
  by_cases h : THRESHOLD < (t.get t.select).sims
  · rw [loopStep_eq_pos g1 t inp h, loopStep_eq_pos g2 t inp h,
      expand_flag_congr g1 g2 ht hp t t.select,
      simulate_flag_congr g1 g2 ht hp ho hw,
      backprop_flag_congr g1 g2 hpl]
  · rw [loopStep_eq_neg g1 t inp h, loopStep_eq_neg g2 t inp h,
      simulate_flag_congr g1 g2 ht hp ho hw,
      backprop_flag_congr g1 g2 hpl]

theorem runLoop_flag_congr (g1 g2 : Game σ π α)
    (hpl : g1.player = g2.player) (ht : g1.turns = g2.turns)
    (hp : ∀ s a, (g1.play s a).1 = (g2.play s a).1)
    (ho : g1.over = g2.over) (hw : g1.winner = g2.winner) :
    ∀ (inputs : List (Nat × Nat × List Nat)) (t : Tree σ α),
      runLoop g1 inputs t = runLoop g2 inputs t := by
  intro inputs
  induction inputs with
  | nil => intro t; rfl
  | cons i is ih =>
    intro t
    show runLoop g1 is (loopStep g1 t i) = runLoop g2 is (loopStep g2 t i)
    rw [loopStep_flag_congr g1 g2 hpl ht hp ho hw t i, ih]

theorem run_flag_congr [Inhabited α] [DecidableEq π] (g1 g2 : Game σ π α)
    (hpl : g1.player = g2.player) (ht : g1.turns = g2.turns)
    (hp : ∀ s a, (g1.play s a).1 = (g2.play s a).1)
    (ho : g1.over = g2.over) (hw : g1.winner = g2.winner) :
    ∀ (s : σ) (inputs : List (Nat × Nat × List Nat)), run g1 s inputs = run g2 s inputs := by
  intro s inputs
  simp only [run]
  rw [expand_flag_congr g1 g2 ht hp (Tree.new s) ((Tree.new s : Tree σ α)).root,
    runLoop_flag_congr g1 g2 hpl ht hp ho hw inputs]

end FlagCongr

/-- Analogue of `selChild_split` for the final choice of `run`: `max_by` on
the `sims` of the given handles picks the LAST handle of maximal `sims`. -/
theorem bestChild_split (t : Tree σ α) (cs : List Nat) (hne : cs ≠ []) :
    ∃ c l₁ l₂,
      rustMaxBy (fun a b : Nat × Nat => ncmp a.2 b.2)
        (cs.map (fun i => (i, (t.get i).sims))) = some (c, (t.get c).sims) ∧
      cs = l₁ ++ c :: l₂ ∧
      (∀ d ∈ l₁, (t.get d).sims ≤ (t.get c).sims) ∧
      (∀ d ∈ l₂, (t.get d).sims < (t.get c).sims) := by
  cases cs with
  | nil => exact absurd rfl hne
  | cons x xs =>
    obtain ⟨m, pl₁, pl₂, hmx, hsplit, hle1, hlt2⟩ :=
      rustMaxBy_split (fun a b : Nat × Nat => ncmp a.2 b.2)
        (fun a b => a.2 ≤ b.2) (fun a b => a.2 < b.2)
        (fun a b => ncmp_gt_iff a.2 b.2)
        (fun a b h => ncmp_notgt a.2 b.2 h)
        (fun a b h => Nat.le_of_lt h)
        (fun a b c h1 h2 => Nat.le_trans h1 h2)
        (fun a b c h1 h2 => Nat.lt_of_lt_of_le h1 h2)
        (xs.map (fun i => (i, (t.get i).sims))) (x, (t.get x).sims)
    have hmap : (x :: xs).map (fun i => (i, (t.get i).sims)) = pl₁ ++ m :: pl₂ := by
      rw [List.map_cons]
      exact hsplit
    have hval : ∀ p ∈ (x :: xs).map (fun i => (i, (t.get i).sims)), p.2 = (t.get p.1).sims := by
      intro p hp
      obtain ⟨i, _, hfi⟩ := List.mem_map.mp hp
      rw [← hfi]
    have hmmem : m ∈ (x :: xs).map (fun i => (i, (t.get i).sims)) := by
      rw [hmap]
      exact List.mem_append_right _ (List.mem_cons_self _ _)
    have hmval : m.2 = (t.get m.1).sims := hval m hmmem
    have hmpair : m = (m.1, (t.get m.1).sims) := by
      rw [← hmval]
    refine ⟨m.1, pl₁.map Prod.fst, pl₂.map Prod.fst, ?_, ?_, ?_, ?_⟩
    · rw [List.map_cons, ← hmpair]
      exact hmx
    · have h2 := congrArg (List.map Prod.fst) hmap
      have hid : (Prod.fst ∘ fun i : Nat => (i, (t.get i).sims)) = id := by
        funext i
        rfl
      rw [List.map_map, hid, List.map_id, List.map_append, List.map_cons] at h2
      exact h2
    · intro d hd
      obtain ⟨p, hp, hpd⟩ := List.mem_map.mp hd
      have hpmem : p ∈ (x :: xs).map (fun i => (i, (t.get i).sims)) := by
        rw [hmap]
        exact List.mem_append_left _ hp
      have := hle1 p hp
      rw [hval p hpmem, hmval, hpd] at this
      exact this
    · intro d hd
      obtain ⟨p, hp, hpd⟩ := List.mem_map.mp hd
      have hpmem : p ∈ (x :: xs).map (fun i => (i, (t.get i).sims)) := by
        rw [hmap]
        exact List.mem_append_right _ (List.mem_cons_of_mem _ hp)
      have := hlt2 p hp
      rw [hval p hpmem, hmval, hpd] at this
      exact this

/-! ### Statistics through expansion -/

theorem expandStep_stats (g : Game σ π α) (idx : Nat) (t : Tree σ α) (a : α) (j : Nat) :
    ((expandStep g idx t a).get j).wins = (if j < t.arena.length then (t.get j).wins else 0) ∧
    ((expandStep g idx t a).get j).sims = (if j < t.arena.length then (t.get j).sims else 0) := by
  simp only [expandStep, Tree.get_set]
  by_cases hij : idx = j ∧ idx <
      (t.push ⟨t.arena.length, idx, [], (g.play ((t.get idx).state) a).1, some a, 0, 0⟩).arena.length
  · rw [if_pos hij]
    obtain ⟨he, hl⟩ := hij
    rw [Tree.length_push] at hl
    subst he
    by_cases hjt : idx < t.arena.length
    · rw [Tree.get_push_lt t _ idx hjt]
      refine ⟨?_, ?_⟩ <;> rw [if_pos hjt]
    · have hje : idx = t.arena.length := by omega
      rw [hje, Tree.get_push_len]
      refine ⟨?_, ?_⟩ <;> rw [if_neg (Nat.lt_irrefl _)]
  · rw [if_neg hij]
    by_cases hjt : j < t.arena.length
    · rw [Tree.get_push_lt t _ j hjt]
      refine ⟨?_, ?_⟩ <;> rw [if_pos hjt]
    · by_cases hje : j = t.arena.length
      · rw [hje, Tree.get_push_len]
        refine ⟨?_, ?_⟩ <;> rw [if_neg (Nat.lt_irrefl _)]
      · rw [Tree.get_oob _ j (by rw [Tree.length_push]; omega)]
        refine ⟨?_, ?_⟩ <;> rw [if_neg hjt] <;> rfl

theorem expand_fold_stats (g : Game σ π α) (idx : Nat) (acts : List α) :
    ∀ (t : Tree σ α) (j : Nat),
      ((acts.foldl (expandStep g idx) t).get j).wins =
        (if j < t.arena.length then (t.get j).wins else 0) ∧
      ((acts.foldl (expandStep g idx) t).get j).sims =
        (if j < t.arena.length then (t.get j).sims else 0) := by
  induction acts with
  | nil =>
    intro t j
    by_cases h : j < t.arena.length
    · simp [h]
    · rw [List.foldl_nil, Tree.get_oob t j (Nat.le_of_not_lt h), if_neg h, if_neg h]
      exact ⟨rfl, rfl⟩
  | cons a as ih =>
    intro t j
    rw [List.foldl_cons]
    obtain ⟨iw, is⟩ := ih (expandStep g idx t a) j
    obtain ⟨sw, ss⟩ := expandStep_stats g idx t a j
    rw [iw, is, expandStep_length, sw, ss]
    by_cases h1 : j < t.arena.length
    · simp [h1, Nat.lt_succ_of_lt h1]
    · by_cases h2 : j < t.arena.length + 1
      · simp [h1, h2]
      · simp [h1, h2]

/-! ### Claim theorems -/

/-- C2: a node with `sims = 0` has selection priority `+∞` (`none`) for every
parent visit count; a node with `sims > 0` and `parentSims ≥ 1` has priority
exactly `wins/sims + 1.414 * sqrt(ln parentSims / sims)` (as a real number);
consequently, one selection step never picks a visited child while an
unvisited child is present (given, as in the claim, that visited children
have `parentSims ≥ 1`). -/
theorem C2_priority_spec :
    (∀ (n : Node σ α) (psims : Nat), n.sims = 0 → n.priority psims = none) ∧
    (∀ (n : Node σ α) (psims : Nat), 0 < n.sims → 1 ≤ psims →
      n.priority psims = some ((n.wins : ℝ) / (n.sims : ℝ) +
        (1.414 : ℝ) * Real.sqrt (Real.log (psims : ℝ) / (n.sims : ℝ)))) ∧
    (∀ (t : Tree σ α) (cs : List Nat),
      (∃ c ∈ cs, (t.get c).sims = 0) →
      (∀ c ∈ cs, 0 < (t.get c).sims → 1 ≤ (t.get ((t.get c).parent)).sims) →
      (t.get (selChild t cs)).sims = 0) := by
  refine ⟨fun n psims h => priority_sims_zero n psims h,
    fun n psims h1 h2 => priority_pos n psims h1 h2, ?_⟩
  intro t cs hex hpos
  cases cs with
  | nil =>
    obtain ⟨c, hc, _⟩ := hex
    exact absurd hc (by simp)
  | cons x xs =>
    have hmx : rustMaxBy (fun a b : Nat × Option ℝ => pcmp a.2 b.2)
        ((x :: xs).map (fun i => (i, prioOf t i))) =
        some ((xs.map (fun i => (i, prioOf t i))).foldl
          (fun acc y => if pcmp acc.2 y.2 = .gt then acc else y) (x, prioOf t x)) := rfl
    have hexp : ∃ p ∈ (x :: xs).map (fun i => (i, prioOf t i)), p.2 = none := by
      obtain ⟨c, hc, hc0⟩ := hex
      refine ⟨(c, prioOf t c), List.mem_map.mpr ⟨c, hc, rfl⟩, ?_⟩
      exact priority_sims_zero _ _ hc0
    have hm2 := rustMaxBy_none_snd _ _ hmx hexp
    have hmmem := rustMaxBy_mem _ _ _ hmx
    obtain ⟨i, hi, hfi⟩ := List.mem_map.mp hmmem
    have hsel : selChild t (x :: xs) = i := by
      simp only [selChild, hmx, Option.getD_some]
      rw [← hfi]
    have hprio : prioOf t i = none := by
      have h2 : (i, prioOf t i).2 = none := by
        rw [hfi]
        exact hm2
      exact h2
    rw [hsel]
    rcases priority_eq_none _ _ hprio with h | h
    · exact h
    · by_cases hz : (t.get i).sims = 0
      · exact hz
      · have := hpos i hi (Nat.pos_of_ne_zero hz)
        omega

/-- C2 witness: concrete instances of all three parts. -/
theorem C2_priority_witness :
    nodeA.sims = 0 ∧ nodeA.priority 5 = none ∧
    (0 < nodeB.sims ∧ 1 ≤ 1 ∧ nodeB.priority 1 =
      some ((nodeB.wins : ℝ) / (nodeB.sims : ℝ) +
        (1.414 : ℝ) * Real.sqrt (Real.log ((1 : Nat) : ℝ) / (nodeB.sims : ℝ)))) ∧
    ((∃ c ∈ [1, 2], (tTwo.get c).sims = 0) ∧ (tTwo.get (selChild tTwo [1, 2])).sims = 0) :=
  ⟨rfl, C2_priority_spec.1 nodeA 5 rfl,
   ⟨by decide, by decide, C2_priority_spec.2.1 nodeB 1 (by decide) (by decide)⟩,
   ⟨⟨1, by decide, by decide⟩,
    C2_priority_spec.2.2 tTwo [1, 2] ⟨1, by decide, by decide⟩ (by decide)⟩⟩

/-- C4 counterexample: on the concrete reachable tree `tTwo` the root's two
children tie on priority (both are unvisited, priority `+∞`), yet `select`
returns child `2` — the SECOND child — refuting the claimed first-child
tie-break. -/
theorem C4_select_counterexample :
    (tTwo.get tTwo.root).children = [1, 2] ∧
    prioOf tTwo 1 = prioOf tTwo 2 ∧
    tTwo.select = 2 ∧ (2 : Nat) ≠ 1 :=
  ⟨rfl, rfl, rfl, by decide⟩

/-- C4 (amended): `select()` starts at the root and, at every node with
children, moves to the child of maximal priority — ties broken by the LAST
child in the children sequence attaining the maximum — stopping at the first
childless node reached (`DescendsTo` is exactly that descent). -/
theorem C4_select_amended (t : Tree σ α) (h : ChildInv t) :
    DescendsTo t t.root t.select ∧ (t.get t.select).children = [] :=
  ⟨(select_spec t h).2, (select_spec t h).1⟩

/-- C4 witness: the amended descent on the concrete tree `tTwo`. -/
theorem C4_select_witness :
    ChildInv tTwo ∧ DescendsTo tTwo tTwo.root tTwo.select := by
  have h : ChildInv tTwo := by decide
  exact ⟨h, (C4_select_amended tTwo h).1⟩

/-- C9: in every reachable tree, every child handle is strictly greater than
the handle of the node holding it (and in bounds), and therefore the descent
of `select` terminates: the returned node is childless. -/
theorem C9_handles_spec [DecidableEq π] (g : Game σ π α) (t : Tree σ α)
    (h : Reachable g t) :
    (∀ i, i < t.arena.length → ∀ c ∈ (t.get i).children, i < c ∧ c < t.arena.length) ∧
    (t.get t.select).children = [] := by
  obtain ⟨hci, hpi⟩ := reachable_inv g t h
  exact ⟨hci.2.2.2, (select_spec t hci).1⟩

/-- C9 witness: the concrete reachable tree `tTwo`. -/
theorem C9_handles_witness :
    (∀ i, i < tTwo.arena.length → ∀ c ∈ (tTwo.get i).children, i < c ∧ c < tTwo.arena.length) ∧
    (tTwo.get tTwo.select).children = [] :=
  C9_handles_spec gTwo tTwo (Reachable.expand (Tree.new 0) 0 (Reachable.new 0) (by decide))

/-- C7: in every tree state reachable by the tree operations (creation,
expansion, backpropagation — simulation does not touch the tree), every node
satisfies `wins ≤ sims`; both counters are zero at creation (in the fresh tree
and in every node created by expansion) and expansion leaves the counters of
existing nodes untouched, so only backpropagation modifies them. -/
theorem C7_wins_le_sims [DecidableEq π] (g : Game σ π α) :
    (∀ t : Tree σ α, Reachable g t → ∀ n ∈ t.arena, n.wins ≤ n.sims) ∧
    (∀ s : σ, ∀ n ∈ (Tree.new s : Tree σ α).arena, n.wins = 0 ∧ n.sims = 0) ∧
    (∀ (t : Tree σ α) (idx j : Nat), j < t.arena.length →
      ((t.expand g idx).get j).wins = (t.get j).wins ∧
      ((t.expand g idx).get j).sims = (t.get j).sims) ∧
    (∀ (t : Tree σ α) (idx j : Nat), t.arena.length ≤ j →
      ((t.expand g idx).get j).wins = 0 ∧ ((t.expand g idx).get j).sims = 0) := by
  refine ⟨fun t h => reachable_wins_le g t h, ?_, ?_, ?_⟩
  · intro s n hn
    simp only [Tree.new, List.mem_singleton] at hn
    subst hn
    exact ⟨rfl, rfl⟩
  · intro t idx j hj
    obtain ⟨hw, hs⟩ := expand_fold_stats g idx (g.turns ((t.get idx).state)) t j
    exact ⟨by rw [Tree.expand_def, hw, if_pos hj], by rw [Tree.expand_def, hs, if_pos hj]⟩
  · intro t idx j hj
    obtain ⟨hw, hs⟩ := expand_fold_stats g idx (g.turns ((t.get idx).state)) t j
    exact ⟨by rw [Tree.expand_def, hw, if_neg (Nat.not_lt.mpr hj)],
      by rw [Tree.expand_def, hs, if_neg (Nat.not_lt.mpr hj)]⟩

/-- C7 witness: the invariant on the concrete reachable tree `tTwo` and the
expansion clauses at concrete indices. -/
theorem C7_wins_le_sims_witness :
    Reachable gTwo tTwo ∧ (∀ n ∈ tTwo.arena, n.wins ≤ n.sims) ∧
    (0 < (Tree.new 0 : Tree Nat Nat).arena.length ∧
      (((Tree.new 0 : Tree Nat Nat).expand gTwo 0).get 0).wins =
        ((Tree.new 0 : Tree Nat Nat).get 0).wins) ∧
    ((Tree.new 0 : Tree Nat Nat).arena.length ≤ 1 ∧
      (((Tree.new 0 : Tree Nat Nat).expand gTwo 0).get 1).wins = 0) := by
  have hreach : Reachable gTwo tTwo :=
    Reachable.expand (Tree.new 0) 0 (Reachable.new 0) (by decide)
  exact ⟨hreach, (C7_wins_le_sims gTwo).1 tTwo hreach,
    ⟨by decide, ((C7_wins_le_sims gTwo).2.2.1 (Tree.new 0) 0 0 (by decide)).1⟩,
    ⟨by decide, ((C7_wins_le_sims gTwo).2.2.2 (Tree.new 0) 0 1 (by decide)).1⟩⟩

/-- C8: expanding a node with an empty children sequence gives it exactly one
child handle per legal action, the consecutive fresh handles in enumeration
order; the `k`-th new node has parent `idx`, action = the `k`-th legal action,
state = that action played on a copy of `idx`'s state (the success flag of
`play` is dropped), and zero statistics; every other old node is untouched. -/
theorem C8_expand_spec (g : Game σ π α) (t : Tree σ α) (idx : Nat)
    (hidx : idx < t.arena.length) (hemp : (t.get idx).children = []) :
    ((t.expand g idx).get idx).children =
      List.range' t.arena.length (g.turns ((t.get idx).state)).length ∧
    (t.expand g idx).arena.length =
      t.arena.length + (g.turns ((t.get idx).state)).length ∧
    (∀ k, ∀ hk : k < (g.turns ((t.get idx).state)).length,
      (t.expand g idx).get (t.arena.length + k) =
        ⟨t.arena.length + k, idx, [],
          (g.play ((t.get idx).state) ((g.turns ((t.get idx).state)).get ⟨k, hk⟩)).1,
          some ((g.turns ((t.get idx).state)).get ⟨k, hk⟩), 0, 0⟩) ∧
    (∀ j, j < t.arena.length → j ≠ idx → (t.expand g idx).get j = t.get j) := by
  obtain ⟨eL, eroot, eold, eidx, enew⟩ := Tree.expand_spec t g idx hidx
  refine ⟨?_, eL, enew, eold⟩
  rw [eidx]
  show (t.get idx).children ++ _ = _
  rw [hemp, List.nil_append]

/-- C8 witness: expanding the fresh root of `gTwo`. -/
theorem C8_expand_witness :
    0 < (Tree.new 0 : Tree Nat Nat).arena.length ∧
    ((Tree.new 0 : Tree Nat Nat).get 0).children = [] ∧
    (((Tree.new 0 : Tree Nat Nat).expand gTwo 0).get 0).children = List.range' 1 2 :=
  ⟨by decide, rfl, (C8_expand_spec gTwo (Tree.new 0) 0 (by decide) rfl).1⟩

/-- C1: backpropagation substitutes the root's current actor for a drawn
outcome, then walks the parent chain from the simulated node up to and
including the root (the chain of a valid handle of a well-formed tree always
contains both ends); every node on the chain gets `sims + 1` and `wins + 1`
exactly when the effective winner differs from the actor stored at that
node's state, every node off the chain is untouched, and no node is added or
removed. -/
theorem C1_backprop_spec [DecidableEq π] (g : Game σ π α) (t : Tree σ α)
    (hwf : WellFormed t) (idx : Nat) (hidx : idx < t.arena.length) (w : Option π) :
    idx ∈ t.chain idx ∧ t.root ∈ t.chain idx ∧
    (t.backprop g idx w).arena.length = t.arena.length ∧
    (∀ j ∈ t.chain idx, (t.backprop g idx w).get j =
      { t.get j with
        wins := (t.get j).wins +
          (if effWinner g t w ≠ g.player ((t.get j).state) then 1 else 0),
        sims := (t.get j).sims + 1 }) ∧
    (∀ j, j ∉ t.chain idx → (t.backprop g idx w).get j = t.get j) := by
  have hroot0 : t.root = 0 := hwf.1.1
  have hnull : (t.get t.root).parent = usizeMax := by
    rw [hroot0]
    exact hwf.2.1.1
  have hchain_eq : t.chain idx = chainAux t usizeMax (t.arena.length + 1) idx := by
    rw [Tree.chain, hnull]
  obtain ⟨hnd, hbnd, hself, hzero⟩ := chain_spec t hwf idx hidx (t.arena.length + 1) (by omega)
  have hnd2 : (chainAux t usizeMax (t.arena.length + 1) idx).Nodup := hnd
  have hspec := backpropAux_spec g (effWinner g t w) usizeMax (t.arena.length + 1) idx t hnd2
    (fun j hj => (hbnd j hj).2)
  have hbp_eq : t.backprop g idx w =
      backpropAux g (effWinner g t w) usizeMax (t.arena.length + 1) idx t := by
    rw [Tree.backprop, hnull]
  refine ⟨?_, ?_, ?_, ?_, ?_⟩
  · rw [hchain_eq]
    exact hself
  · rw [hchain_eq, hroot0]
    exact hzero
  · rw [hbp_eq]
    exact (backpropAux_shape g (effWinner g t w) usizeMax (t.arena.length + 1) idx t).1
  · intro j hj
    rw [hchain_eq] at hj
    rw [hbp_eq, hspec j, if_pos hj]
  · intro j hj
    rw [hchain_eq] at hj
    rw [hbp_eq, hspec j, if_neg hj]

/-- C1 witness: backpropagating from child `1` of `tTwo`. -/
theorem C1_backprop_witness :
    WellFormed tTwo ∧ 1 < tTwo.arena.length ∧
    (1 ∈ tTwo.chain 1 ∧ tTwo.root ∈ tTwo.chain 1 ∧
      (tTwo.backprop gTwo 1 (some true)).arena.length = tTwo.arena.length) := by
  have hwf : WellFormed tTwo := by decide
  have h := C1_backprop_spec gTwo tTwo hwf 1 (by decide) (some true)
  exact ⟨hwf, by decide, h.1, h.2.1, h.2.2.1⟩

/-- C5: within the search loop, a node whose children sequence turns from
empty to non-empty during one iteration (i.e. a node that got expanded) had
`sims > THRESHOLD` before that iteration; consequently, throughout any run of
the loop, whenever a node becomes expanded at step `k`, its `sims` strictly
exceeded the threshold at step `k`. -/
theorem C5_threshold_spec [Inhabited α] [DecidableEq π] (g : Game σ π α) :
    (∀ (t : Tree σ α) (inp : Nat × Nat × List Nat) (j : Nat),
      (t.get j).children = [] → ((loopStep g t inp).get j).children ≠ [] →
      THRESHOLD < (t.get j).sims) ∧
    (∀ (inputs : List (Nat × Nat × List Nat)) (t : Tree σ α) (k j : Nat),
      ∀ hk : k < inputs.length,
      ((runLoop g (inputs.take k) t).get j).children = [] →
      ((runLoop g (inputs.take (k + 1)) t).get j).children ≠ [] →
      THRESHOLD < ((runLoop g (inputs.take k) t).get j).sims) := by
  have hstep : ∀ (t : Tree σ α) (inp : Nat × Nat × List Nat) (j : Nat),
      (t.get j).children = [] → ((loopStep g t inp).get j).children ≠ [] →
      THRESHOLD < (t.get j).sims := by
    intro t inp j h1 h2
    by_cases hg : THRESHOLD < (t.get t.select).sims
    · have hlt := guard_in_bounds t hg
      rw [loopStep_eq_pos g t inp hg] at h2
      rw [((Tree.backprop_shape _ g _ _).2.2 j).1] at h2
      obtain ⟨eL, eroot, eold, eidx, enew⟩ := Tree.expand_spec t g t.select hlt
      by_cases hji : j = t.select
      · subst hji
        exact hg
      · by_cases hjL : j < t.arena.length
        · rw [eold j hjL hji] at h2
          exact absurd h1 h2
        · exfalso
          by_cases hje : j < (t.expand g t.select).arena.length
          · have hk2 : ∃ k, j = t.arena.length + k ∧
                k < (g.turns ((t.get t.select).state)).length := by
              refine ⟨j - t.arena.length, by omega, ?_⟩
              rw [eL] at hje
              omega
            obtain ⟨k, hke, hkl⟩ := hk2
            subst hke
            rw [enew k hkl] at h2
            exact h2 rfl
          · rw [Tree.get_oob _ j (Nat.le_of_not_lt hje)] at h2
            exact h2 rfl
    · rw [loopStep_eq_neg g t inp hg] at h2
      rw [((Tree.backprop_shape t g _ _).2.2 j).1] at h2
      exact absurd h1 h2
  refine ⟨hstep, ?_⟩
  intro inputs t k j hk h1 h2
  rw [runLoop_take_step g inputs t k hk] at h2
  exact hstep _ _ _ h1 h2

/-- C5 witness: one loop step on `tStep`, whose leaf has `sims = 4 > 3`,
expands that leaf. -/
theorem C5_threshold_witness :
    (tStep.get 1).children = [] ∧
    ((loopStep gStep tStep (0, 5, [])).get 1).children ≠ [] ∧
    THRESHOLD < (tStep.get 1).sims := by
  have hne : ((loopStep gStep tStep (0, 5, [])).get 1).children ≠ [] := by decide
  exact ⟨rfl, hne, (C5_threshold_spec gStep).1 tStep (0, 5, []) 1 rfl hne⟩

/-- C6: when the state has exactly one legal action, `run` returns that
action immediately for EVERY iteration budget (so no simulation and no
backpropagation contribute to the answer), and every node of the tree at the
early return still has zero statistics. -/
theorem C6_single_action_spec [Inhabited α] [DecidableEq π] (g : Game σ π α) (s : σ) (a : α)
    (h : g.turns s = [a]) :
    (∀ inputs, run g s inputs = some a) ∧
    (∀ n ∈ ((Tree.new s : Tree σ α).expand g 0).arena, n.wins = 0 ∧ n.sims = 0) := by
  have h01 : (0 : Nat) < (Tree.new s : Tree σ α).arena.length := by
    rw [Tree.new_length]
    omega
  obtain ⟨eL, eroot, eold, eidx, enew⟩ := Tree.expand_spec (Tree.new s) g 0 h01
  have hacts : g.turns (((Tree.new s : Tree σ α).get 0).state) = [a] := h
  constructor
  · intro inputs
    have hch : (((Tree.new s : Tree σ α).expand g 0).get 0).children = [1] := by
      rw [eidx, hacts]
      rfl
    have hroot2 : ((Tree.new s : Tree σ α).expand g 0).root = 0 := by
      rw [eroot]
      rfl
    have hnode1 : (((Tree.new s : Tree σ α).expand g 0).get 1).action = some a := by
      have hk : 0 < (g.turns (((Tree.new s : Tree σ α).get 0).state)).length := by
        rw [hacts]
        exact Nat.one_pos
      have he := enew 0 hk
      rw [show (Tree.new s : Tree σ α).arena.length + 0 = 1 from rfl] at he
      rw [he]
      show some ((g.turns (((Tree.new s : Tree σ α).get 0).state)).get ⟨0, hk⟩) = some a
      rw [List.get_of_eq hacts ⟨0, hk⟩]
      rfl
    show run g s inputs = some a
    simp only [run]
    rw [Tree.new_root, hroot2, hch,
      if_pos (show ([1] : List Nat).length = 1 from rfl),
      show ([1] : List Nat).getD 0 0 = 1 from rfl]
    exact hnode1
  · intro n hn
    obtain ⟨j, hj, hget⟩ := List.mem_iff_getElem.mp hn
    have hn2 : n = ((Tree.new s : Tree σ α).expand g 0).get j := by
      rw [Tree.get_lt _ j hj]
      simp [hget]
    subst hn2
    obtain ⟨hw, hs⟩ := expand_fold_stats g 0
      (g.turns (((Tree.new s : Tree σ α).get 0).state)) (Tree.new s) j
    rw [Tree.expand_def, hw, hs]
    by_cases hjl : j < (Tree.new s : Tree σ α).arena.length
    · have hj0 : j = 0 := by
        rw [Tree.new_length] at hjl
        omega
      subst hj0
      refine ⟨?_, ?_⟩ <;> rw [if_pos hjl] <;> rfl
    · refine ⟨?_, ?_⟩ <;> rw [if_neg hjl]

/-- C6 witness: `gOne` has exactly one legal turn from state `0`. -/
theorem C6_single_action_witness :
    gOne.turns 0 = [7] ∧ Mcts.run gOne 0 [(0, 5, []), (1, 2, [3])] = some 7 :=
  ⟨rfl, (C6_single_action_spec gOne 0 7 rfl).1 _⟩

/-- C3 counterexample: `run` on `gTwo` with an immediately-elapsing budget
(zero completed loop iterations) ends with the root's two children tied on
`sims`; the claim demands the FIRST child's action (`some 1`), but the engine
returns the SECOND child's action (`some 2`): Rust's `max_by` keeps the last
of equally-maximal elements. -/
theorem C3_tie_counterexample :
    (tTwo.get tTwo.root).children = [1, 2] ∧
    (tTwo.get 1).sims = (tTwo.get 2).sims ∧
    (tTwo.get 1).action = some 1 ∧ (tTwo.get 2).action = some 2 ∧
    Mcts.run gTwo 0 [] = some 2 :=
  ⟨rfl, rfl, rfl, rfl, rfl⟩

/-- C3 (amended): after the loop, `run` returns the originating action of a
root child whose `sims` is maximal among all root children; when several
share the maximum, the LAST one in the children sequence is returned (the
child splits the sequence with all earlier children `≤` and all later
children strictly `<`). -/
theorem C3_best_child_amended [Inhabited α] [DecidableEq π] (g : Game σ π α) (s : σ)
    (inputs : List (Nat × Nat × List Nat))
    (hne : g.turns s ≠ []) (hlen : (g.turns s).length ≠ 1) :
    ∃ c l₁ l₂,
      ((runLoop g inputs ((Tree.new s : Tree σ α).expand g 0)).get 0).children =
        l₁ ++ c :: l₂ ∧
      run g s inputs = ((runLoop g inputs ((Tree.new s : Tree σ α).expand g 0)).get c).action ∧
      (∀ d ∈ l₁, ((runLoop g inputs ((Tree.new s : Tree σ α).expand g 0)).get d).sims ≤
        ((runLoop g inputs ((Tree.new s : Tree σ α).expand g 0)).get c).sims) ∧
      (∀ d ∈ l₂, ((runLoop g inputs ((Tree.new s : Tree σ α).expand g 0)).get d).sims <
        ((runLoop g inputs ((Tree.new s : Tree σ α).expand g 0)).get c).sims) := by
  have h01 : (0 : Nat) < (Tree.new s : Tree σ α).arena.length := by
    rw [Tree.new_length]
    omega
  obtain ⟨eL, eroot, eold, eidx, enew⟩ := Tree.expand_spec (Tree.new s) g 0 h01
  set t1 := (Tree.new s : Tree σ α).expand g 0 with ht1
  set F := runLoop g inputs t1 with hF
  have hch1 : (t1.get 0).children = List.range' 1 (g.turns s).length := by
    rw [ht1, eidx]
    show ((Tree.new s : Tree σ α).get 0).children ++ _ = _
    rw [show ((Tree.new s : Tree σ α).get 0).children = [] from rfl, List.nil_append]
    rfl
  have hroot1 : t1.root = 0 := by
    rw [ht1, eroot]
    rfl
  have hFroot : F.root = 0 := by
    rw [hF, runLoop_root, hroot1]
  obtain ⟨ext, hext⟩ := runLoop_children_mono g inputs t1 0
  have hFch : (F.get 0).children = List.range' 1 (g.turns s).length ++ ext := by
    rw [hF, hext, hch1]
  have hFne : (F.get 0).children ≠ [] := by
    rw [hFch]
    intro hc
    obtain ⟨hc1, _⟩ := List.append_eq_nil.mp hc
    have := congrArg List.length hc1
    rw [List.length_range'] at this
    exact hne (List.length_eq_zero.mp (by simpa using this))
  obtain ⟨c, l₁, l₂, hmx, hsplit, hle, hlt⟩ := bestChild_split F ((F.get 0).children) hFne
  refine ⟨c, l₁, l₂, hsplit, ?_, hle, hlt⟩
  show run g s inputs = (F.get c).action
  simp only [run]
  rw [Tree.new_root, ← ht1, hroot1, hch1,
    if_neg (show ¬ (List.range' 1 (g.turns s).length).length = 1 by
      rw [List.length_range']
      exact hlen),
    ← hF, hFroot, hmx]

/-- C3 witness for the amended claim: `gTwo` from state `0` with an empty
iteration budget. -/
theorem C3_best_child_witness :
    gTwo.turns 0 ≠ [] ∧ (gTwo.turns 0).length ≠ 1 ∧
    (∃ c l₁ l₂,
      ((runLoop gTwo [] ((Tree.new 0 : Tree Nat Nat).expand gTwo 0)).get 0).children =
        l₁ ++ c :: l₂ ∧
      Mcts.run gTwo 0 [] =
        ((runLoop gTwo [] ((Tree.new 0 : Tree Nat Nat).expand gTwo 0)).get c).action ∧
      (∀ d ∈ l₁, ((runLoop gTwo [] ((Tree.new 0 : Tree Nat Nat).expand gTwo 0)).get d).sims ≤
        ((runLoop gTwo [] ((Tree.new 0 : Tree Nat Nat).expand gTwo 0)).get c).sims) ∧
      (∀ d ∈ l₂, ((runLoop gTwo [] ((Tree.new 0 : Tree Nat Nat).expand gTwo 0)).get d).sims <
        ((runLoop gTwo [] ((Tree.new 0 : Tree Nat Nat).expand gTwo 0)).get c).sims)) :=
  ⟨by decide, by decide, C3_best_child_amended gTwo 0 [] (by decide) (by decide)⟩

/-- C10: the engine never looks at the boolean returned by `play`: two games
that agree on everything except the success flags of `play` produce
IDENTICAL expansions, rollouts, backpropagations and final decisions — an
apply failure is never detected, reported or handled by the core. -/
theorem C10_flag_discard [Inhabited α] [DecidableEq π] (g1 g2 : Game σ π α)
    (hpl : g1.player = g2.player) (ht : g1.turns = g2.turns)
    (hp : ∀ s a, (g1.play s a).1 = (g2.play s a).1)
    (ho : g1.over = g2.over) (hw : g1.winner = g2.winner) :
    (∀ (t : Tree σ α) (idx : Nat), t.expand g1 idx = t.expand g2 idx) ∧
    (∀ (n : Node σ α) (fuel : Nat) (rs : List Nat),
      n.simulate g1 fuel rs = n.simulate g2 fuel rs) ∧
    (∀ (t : Tree σ α) (idx : Nat) (w : Option π),
      t.backprop g1 idx w = t.backprop g2 idx w) ∧
    (∀ (s : σ) (inputs : List (Nat × Nat × List Nat)), run g1 s inputs = run g2 s inputs) :=
  ⟨expand_flag_congr g1 g2 ht hp, simulate_flag_congr g1 g2 ht hp ho hw,
   backprop_flag_congr g1 g2 hpl, run_flag_congr g1 g2 hpl ht hp ho hw⟩

/-- C10 witness: `gTwo` and `gTwoFail` differ exactly in the success flag of
every `play`, yet the engine's run is identical. -/
theorem C10_flag_discard_witness :
    (∀ (s a : Nat), (gTwo.play s a).1 = (gTwoFail.play s a).1) ∧
    (∀ (s a : Nat), (gTwo.play s a).2 ≠ (gTwoFail.play s a).2) ∧
    Mcts.run gTwo 0 [] = Mcts.run gTwoFail 0 [] := by
  refine ⟨fun s a => rfl, fun s a h => Bool.noConfusion h, ?_⟩
  exact (C10_flag_discard gTwo gTwoFail rfl rfl (fun s a => rfl) rfl rfl).2.2.2 0 []

end Mcts
